import Mathlib

/-
Verification of the DutyAgent duty-rotation scheduler (src/vite.config.ts).
The source manipulates JS Date values at UTC midnight; the model stores the
civil triple (year, month 1..12, day) and compares dates through a day-count
function, which matches comparison of the underlying UTC timestamps for
dates held at UTC midnight.
-/

set_option maxHeartbeats 1600000

namespace DutyAgent

/-- Calendar date at UTC midnight, stored as its civil triple. -/
structure CDate where
  y : Nat
  m : Nat
  d : Nat
deriving DecidableEq, Repr

/-- Gregorian leap-year test. -/
def isLeap (y : Nat) : Bool := (y % 4 == 0 && y % 100 != 0) || y % 400 == 0

/-- Number of days in month m (1-based) of year y. -/
def daysInMonth (y m : Nat) : Nat :=
  if m = 2 then (if isLeap y then 29 else 28)
  else if m = 4 ∨ m = 6 ∨ m = 9 ∨ m = 11 then 30
  else 31

/-- Day count of a civil date (days since 0000-03-01, proleptic Gregorian),
by the standard era / year-of-era formula. This models the UTC day number of
a JS Date holding a calendar date at UTC midnight, up to a constant offset,
so date comparisons in the source become comparisons of this count. -/
def toDays (x : CDate) : Nat :=
  (if x.m ≤ 2 then x.y - 1 else x.y) / 400 * 146097
    + (if x.m ≤ 2 then x.y - 1 else x.y) % 400 * 365
    + (if x.m ≤ 2 then x.y - 1 else x.y) % 400 / 4
    - (if x.m ≤ 2 then x.y - 1 else x.y) % 400 / 100
    + ((153 * (if 2 < x.m then x.m - 3 else x.m + 9) + 2) / 5 + x.d - 1)

/-- UTC day of week, 0 = Sunday .. 6 = Saturday (JS getUTCDay). -/
def dow (x : CDate) : Nat := (toDays x + 3) % 7

/-- Date comparison, modelling comparison of JS Date timestamps. -/
def dle (a b : CDate) : Bool := toDays a ≤ toDays b

/-- Validity of a civil triple. -/
def CDate.valid (x : CDate) : Prop :=
  1 ≤ x.y ∧ 1 ≤ x.m ∧ x.m ≤ 12 ∧ 1 ≤ x.d ∧ x.d ≤ daysInMonth x.y x.m

instance (x : CDate) : Decidable x.valid := by
  unfold CDate.valid; infer_instance

/-- The next calendar day (setUTCDate rollover, one step). -/
def CDate.succ (x : CDate) : CDate :=
  if x.d < daysInMonth x.y x.m then ⟨x.y, x.m, x.d + 1⟩
  else if x.m < 12 then ⟨x.y, x.m + 1, 1⟩
  else ⟨x.y + 1, 1, 1⟩

/-- The previous calendar day. -/
def CDate.pred (x : CDate) : CDate :=
  if 1 < x.d then ⟨x.y, x.m, x.d - 1⟩
  else if 1 < x.m then ⟨x.y, x.m - 1, daysInMonth x.y (x.m - 1)⟩
  else ⟨x.y - 1, 12, 31⟩

/-- Adding n days (JS setUTCDate(getUTCDate() + n) for n ≥ 0). -/
def addDays (x : CDate) (n : Nat) : CDate := CDate.succ^[n] x

/-- Subtracting n days (JS setUTCDate(getUTCDate() - n)). -/
def subDays (x : CDate) (n : Nat) : CDate := CDate.pred^[n] x

/-- Day count of a year boundary, used to relate consecutive months. -/
def yearDays (t : Nat) : Nat := t * 365 + t / 4 - t / 100 + t / 400

/-- Decimal digit character for a digit value. -/
def digitCh (n : Nat) : Char :=
  match n with
  | 0 => '0' | 1 => '1' | 2 => '2' | 3 => '3' | 4 => '4'
  | 5 => '5' | 6 => '6' | 7 => '7' | 8 => '8' | _ => '9'

/-- Digit value of a character, none when it is not a decimal digit. -/
def digitVal (c : Char) : Option Nat :=
  if 48 ≤ c.toNat ∧ c.toNat ≤ 57 then some (c.toNat - 48) else none

/-- Fuel-based decimal digit expansion, most significant first; the fuel
n + 1 always suffices since n shrinks at every division by ten. -/
def natCharsAux : Nat → Nat → List Char
  | 0, _ => []
  | fuel + 1, n =>
    if n < 10 then [digitCh n]
    else natCharsAux fuel (n / 10) ++ [digitCh (n % 10)]

/-- Decimal digits of n, most significant first (JS Number toString). -/
def natChars (n : Nat) : List Char := natCharsAux (n + 1) n

/-- Two-digit zero padding (JS padStart with the 0 character). -/
def pad2 (n : Nat) : List Char := if n < 10 then ['0', digitCh n] else natChars n

/-- formatDateYYYYMMDD from the source, on the character list level. -/
def fmtDate (x : CDate) : List Char :=
  natChars x.y ++ '-' :: (pad2 x.m ++ '-' :: pad2 x.d)

/-- Model of the JS Date constructor applied to a YYYY-MM-DD string with a
UTC midnight suffix: strict 10-character ISO form, month and day
range-checked (the engine rejects out-of-range components). -/
def parseDate (s : List Char) : Option CDate :=
  match s with
  | [y1, y2, y3, y4, s1, m1, m2, s2, d1, d2] =>
    if s1 = '-' ∧ s2 = '-' then
      match digitVal y1, digitVal y2, digitVal y3, digitVal y4,
            digitVal m1, digitVal m2, digitVal d1, digitVal d2 with
      | some a, some b, some c, some e, some f, some g, some i, some j =>
        if 1 ≤ f * 10 + g ∧ f * 10 + g ≤ 12 ∧ 1 ≤ i * 10 + j ∧
            i * 10 + j ≤ daysInMonth (((a * 10 + b) * 10 + c) * 10 + e) (f * 10 + g) then
          some ⟨((a * 10 + b) * 10 + c) * 10 + e, f * 10 + g, i * 10 + j⟩
        else none
      | _, _, _, _, _, _, _, _ => none
    else none
  | _ => none

/-- Leave interval as stored by the source: raw YYYY-MM-DD strings. -/
structure Leave where
  start : String
  stop : String
deriving DecidableEq, Repr

/-- Roster member. -/
structure Person where
  id : Nat
  name : String
  leave : List Leave
deriving DecidableEq, Repr

/-- Named holiday with its raw date string. -/
structure Holiday where
  date : String
  name : String
deriving DecidableEq, Repr

/-- The assignedTo slot of a week: a person id (JS number), a sentinel
string, or null. -/
inductive Assigned where
  | personId (id : Nat)
  | status (s : String)
  | empty
deriving DecidableEq, Repr

/-- One scheduling week. -/
structure Week where
  startDate : CDate
  endDate : CDate
  assignedTo : Assigned
  hasHoliday : Bool
  isHolidayPeriod : Bool
  notes : String
deriving DecidableEq, Repr

/-- getMondayBefore from the source: subtract 6 on Sunday, else dayOfWeek - 1. -/
def getMondayBefore (date : CDate) : CDate :=
  subDays date (if dow date = 0 then 6 else dow date - 1)

/-- getFridayAfter from the source: add 6 on Saturday, else 5 - dayOfWeek. -/
def getFridayAfter (date : CDate) : CDate :=
  addDays date (if dow date = 6 then 6 else 5 - dow date)

/-- getHolidayPeriod: Monday before Dec 25 of the year through Friday after
Jan 1 of the next year. The NaN guard of the source can never fire in the
calendar model, so the result is always the pair. -/
def getHolidayPeriod (scheduleYear : Nat) : CDate × CDate :=
  (getMondayBefore ⟨scheduleYear, 12, 25⟩, getFridayAfter ⟨scheduleYear + 1, 1, 1⟩)

/-- isWeekInHolidayPeriod: interval overlap test against the holiday period. -/
def isWeekInHolidayPeriod (weekStartDate weekEndDate : CDate) (scheduleYear : Nat) : Bool :=
  dle weekStartDate (getHolidayPeriod scheduleYear).2 &&
    dle (getHolidayPeriod scheduleYear).1 weekEndDate

/-- weekContainsHoliday: some holiday date parses and falls inside the week.
An unparseable date string compares false in JS, hence matches nothing. -/
def weekContainsHoliday (startDate endDate : CDate) (holidayList : List Holiday) : Bool :=
  holidayList.any fun h =>
    match parseDate h.date.toList with
    | some hd => dle startDate hd && dle hd endDate
    | none => false

/-- isPersonOnLeave from the source: the person found by id has a leave
interval whose parsed bounds overlap the week. Unparseable bounds compare
false in JS, hence never overlap. -/
def isPersonOnLeave (people : List Person) (personId : Nat) (startDate endDate : CDate) : Bool :=
  match people.find? (fun p => p.id == personId) with
  | none => false
  | some person => person.leave.any fun lv =>
      match parseDate lv.start.toList, parseDate lv.stop.toList with
      | some ls, some le => dle ls endDate && dle startDate le
      | _, _ => false

/-- Per-person running counters during one assignment pass; the JS value
negative infinity for lastAssigned is modelled as none. -/
structure Counts where
  total : Nat
  holiday : Nat
  lastAssigned : Option Nat
deriving DecidableEq, Repr

/-- Final per-person counters exposed by the engine (no lastAssigned). -/
structure Tally where
  total : Nat
  holiday : Nat
deriving DecidableEq, Repr

/-- Initial counters; the source initialises exactly the roster ids, and the
engine only ever reads roster ids, so a total function is equivalent. -/
def initCounts : Nat → Counts := fun _ => ⟨0, 0, none⟩

/-- The sort key of a candidate under the source comparator. -/
def keyOf (counts : Nat → Counts) (p : Person) : Nat × Nat × Option Nat :=
  ((counts p.id).total, (counts p.id).holiday, (counts p.id).lastAssigned)

/-- Strict comparison of lastAssigned values: negative infinity (none) is
below every index; two negative infinities compare as a tie, matching the
NaN comparator result which the sort treats as equality. -/
def oLt : Option Nat → Option Nat → Bool
  | none, some _ => true
  | some i, some j => decide (i < j)
  | _, _ => false

/-- Strict lexicographic comparison on (total, holiday, lastAssigned),
the preorder induced by the source comparator. -/
def keyLt (a b : Nat × Nat × Option Nat) : Bool :=
  if a.1 ≠ b.1 then decide (a.1 < b.1)
  else if a.2.1 ≠ b.2.1 then decide (a.2.1 < b.2.1)
  else oLt a.2.2 b.2.2

/-- First minimal element of a nonempty candidate list under keyLt. -/
def pickMin (counts : Nat → Counts) (a : Person) (l : List Person) : Person :=
  l.foldl (fun best q => if keyLt (keyOf counts q) (keyOf counts best) then q else best) a

/-- Embedding of the sort-then-take-head step of the source: the head of a
stable sort under a total preorder comparator is the first minimal element
of the list, which pickMin computes. -/
def selectFirst (counts : Nat → Counts) : List Person → Option Person
  | [] => none
  | p :: ps => some (pickMin counts p ps)

/-- The available candidates of a week: roster members not on leave. -/
def availablePeople (people : List Person) (w : Week) : List Person :=
  people.filter fun p => !(isPersonOnLeave people p.id w.startDate w.endDate)

/-- One iteration of the assignment map of the source. -/
def assignWeek (people : List Person) (holidayList : List Holiday) (w : Week)
    (index : Nat) (counts : Nat → Counts) : Week × (Nat → Counts) :=
  if w.isHolidayPeriod then (w, counts)
  else
    match selectFirst counts (availablePeople people w) with
    | none => ({ w with assignedTo := Assigned.status "No one available" }, counts)
    | some assignedPerson =>
      ({ w with
          assignedTo := Assigned.personId assignedPerson.id,
          hasHoliday := weekContainsHoliday w.startDate w.endDate holidayList },
       fun id => if id = assignedPerson.id then
          { total := (counts assignedPerson.id).total + 1,
            holiday := (counts assignedPerson.id).holiday
              + (if weekContainsHoliday w.startDate w.endDate holidayList then 1 else 0),
            lastAssigned := some index }
        else counts id)

/-- The stateful map over all weeks: each week is processed in order with
the running counters. -/
def assignLoop (people : List Person) (holidayList : List Holiday) :
    List Week → Nat → (Nat → Counts) → List Week × (Nat → Counts)
  | [], _, counts => ([], counts)
  | w :: rest, index, counts =>
    let step := assignWeek people holidayList w index counts
    let tail := assignLoop people holidayList rest (index + 1) step.2
    (step.1 :: tail.1, tail.2)

/-- assignPeopleToWeeks from the source: run the loop from index 0 with
fresh counters, then expose per-roster-member total and holiday counts. -/
def assignPeopleToWeeks (people : List Person) (holidayList : List Holiday)
    (currentSchedule : List Week) : List Week × (Nat → Option Tally) :=
  ((assignLoop people holidayList currentSchedule 0 initCounts).1,
   fun id => if people.any (fun p => p.id == id) then
      some ⟨((assignLoop people holidayList currentSchedule 0 initCounts).2 id).total,
            ((assignLoop people holidayList currentSchedule 0 initCounts).2 id).holiday⟩
    else none)

/-- The while loop of generateSchedule that finds the first date in the
start month with the configured weekday, including the month-overrun
fallback branch of the source; fuel bounds the loop, which in reality
terminates within the month. startMonth is 0-based as in JS. -/
def findAnchor : Nat → Nat → Nat → Nat → CDate → CDate
  | 0, _, _, _, date => date
  | fuel + 1, year, startMonth, startDayOfWeek, date =>
    if dow date = startDayOfWeek then date
    else if year < date.succ.y ∨ (date.succ.y = year ∧ startMonth + 1 < date.succ.m) then
      addDays ⟨year, startMonth + 1, 1⟩
        ((startDayOfWeek + 7 - dow ⟨year, startMonth + 1, 1⟩) % 7)
    else findAnchor fuel year startMonth startDayOfWeek date.succ

/-- The weekObj literal built for one emitted week of generateSchedule. -/
def weekObj (year : Nat) (holidayList : List Holiday) (date : CDate) : Week :=
  { startDate := date, endDate := addDays date 6,
    assignedTo := if isWeekInHolidayPeriod date (addDays date 6) year then
        Assigned.status "Holiday Period" else Assigned.empty,
    hasHoliday := weekContainsHoliday date (addDays date 6) holidayList,
    isHolidayPeriod := isWeekInHolidayPeriod date (addDays date 6) year,
    notes := "" }

/-- The week emission loop of generateSchedule: emit 7-day weeks while the
start date is still in the configured year. Fuel bounds the loop, which in
reality emits at most 53 weeks. -/
def genWeeks (year : Nat) (holidayList : List Holiday) : Nat → CDate → List Week
  | 0, _ => []
  | fuel + 1, date =>
    if date.y = year then
      weekObj year holidayList date :: genWeeks year holidayList fuel (addDays date 7)
    else []

/-- generateSchedule from the source: anchor search, week emission, then the
assignment pass. -/
def generateSchedule (year startMonth startDayOfWeek : Nat) (people : List Person)
    (holidayList : List Holiday) : List Week × (Nat → Option Tally) :=
  assignPeopleToWeeks people holidayList
    (genWeeks year holidayList 60
      (findAnchor 64 year startMonth startDayOfWeek ⟨year, startMonth + 1, 1⟩))

/-- One step of recalculateAssignments: numeric assignments of roster
members bump the tallies; sentinel or null assignments, and ids without a
counter entry, are ignored. -/
def recalcStep (m : Nat → Option Tally) (w : Week) : Nat → Option Tally :=
  match w.assignedTo with
  | .personId pid =>
    match m pid with
    | some t => fun id => if id = pid then
        some ⟨t.total + 1, t.holiday + (if w.hasHoliday then 1 else 0)⟩ else m id
    | none => m
  | _ => m

/-- Fresh zero tallies for exactly the roster ids. -/
def recalcInit (people : List Person) : Nat → Option Tally :=
  fun id => if people.any (fun p => p.id == id) then some ⟨0, 0⟩ else none

/-- recalculateAssignments from the source: rebuild the tallies purely by
scanning the assignment field of each week. -/
def recalculateAssignments (people : List Person) (schedule : List Week) : Nat → Option Tally :=
  schedule.foldl recalcStep (recalcInit people)

/-- The recount pass on the app state (schedule plus displayed tallies):
the schedule itself is read, never written. -/
def recalcPass (people : List Person) (st : List Week × (Nat → Option Tally)) :
    List Week × (Nat → Option Tally) :=
  (st.1, recalculateAssignments people st.1)

/-- getPersonName from the source. -/
def getPersonName (people : List Person) : Assigned → String
  | .personId id =>
    match people.find? (fun p => p.id == id) with
    | some person => person.name
    | none => "Unknown Person"
  | .status s => s
  | .empty => "Unassigned"

/-- ASCII lowercasing on the character level, the model of the JS
toLowerCase call of the source. -/
def lowerStr (s : String) : String := String.mk (s.toList.map Char.toLower)

/-- getPersonIdFromName from the source: case-insensitive roster lookup
first, then sentinel pass-through, the empty string and unknown names give
null. -/
def getPersonIdFromName (people : List Person) (name : String) : Assigned :=
  match people.find? (fun p => lowerStr p.name == lowerStr name) with
  | some person => .personId person.id
  | none =>
    if name = "Holiday Period" ∨ name = "No one available" ∨
        name = "Unassigned" ∨ name = "" then
      (if name = "" then .empty else .status name)
    else .empty

/-- Whitespace removed by JS String.trim, restricted to the ASCII range the
model uses. -/
def isWS (c : Char) : Bool :=
  c = ' ' ∨ c = '\t' ∨ c = '\n' ∨ c = '\r' ∨ c = '\x0b' ∨ c = '\x0c'

/-- JS String.trim on the character list level. -/
def trimList (l : List Char) : List Char :=
  ((l.dropWhile isWS).reverse.dropWhile isWS).reverse

/-- escapeCSV from the source: wrap in double quotes, doubling inner double
quotes, exactly when the field holds a comma, newline or double quote. -/
def escapeField (s : List Char) : List Char :=
  if s.contains ',' ∨ s.contains '\n' ∨ s.contains '"' then
    '"' :: (s.foldr (fun c acc => (if c = '"' then ['"', '"'] else [c]) ++ acc) []) ++ ['"']
  else s

/-- Left-to-right global replacement of doubled double quotes by one double
quote (the regex replace inside unescapeCSV). -/
def collapseQuotes : List Char → List Char
  | '"' :: '"' :: rest => '"' :: collapseQuotes rest
  | c :: rest => c :: collapseQuotes rest
  | [] => []

/-- unescapeCSV from the source. -/
def unescapeField (s : List Char) : List Char :=
  if s.head? = some '"' ∧ s.getLast? = some '"' then
    collapseQuotes (s.drop 1).dropLast
  else s

/-- Splitting on the line separator regex of the source (an optional
carriage return followed by a newline). -/
def splitLines : List Char → List (List Char)
  | [] => [[]]
  | '\r' :: '\n' :: rest => [] :: splitLines rest
  | '\n' :: rest => [] :: splitLines rest
  | c :: rest =>
    match splitLines rest with
    | [] => [[c]]
    | l :: ls => (c :: l) :: ls

/-- Naive comma split used for the header line. -/
def splitCommas : List Char → List (List Char)
  | [] => [[]]
  | ',' :: rest => [] :: splitCommas rest
  | c :: rest =>
    match splitCommas rest with
    | [] => [[c]]
    | l :: ls => (c :: l) :: ls

/-- CSV_HEADERS from the source. -/
def csvHeaders : List String :=
  ["Week Start Date", "Week End Date", "Assigned To", "Holidays", "Notes"]

/-- The header names on the character list level. -/
def csvHeadersChars : List (List Char) := csvHeaders.map String.toList

/-- One character step of the quote-aware field scanner of the source.
State: fields pushed so far, current field, inQuotes flag. -/
def scanStep (st : List (List Char) × List Char × Bool) (c : Char) :
    List (List Char) × List Char × Bool :=
  if c = '"' then (st.1, st.2.1, !st.2.2)
  else if c = ',' ∧ st.2.2 = false then
    (st.1 ++ [unescapeField (trimList st.2.1)], [], st.2.2)
  else (st.1, st.2.1 ++ [c], st.2.2)

/-- The field values parsed from one data line. -/
def scanRow (line : List Char) : List (List Char) :=
  (line.foldl scanStep ([], [], false)).1
    ++ [unescapeField (trimList (line.foldl scanStep ([], [], false)).2.1)]

/-- The week object pushed for one retained import row: both flags are
re-derived, the blackout check using the year of the imported start date,
and a blackout overlap forces the Holiday Period sentinel. -/
def importedWeek (people : List Person) (holidays : List Holiday)
    (startDate endDate : CDate) (assignedName notes : List Char) : Week :=
  { startDate := startDate,
    endDate := endDate,
    assignedTo := if isWeekInHolidayPeriod startDate endDate startDate.y then
        Assigned.status "Holiday Period"
      else getPersonIdFromName people (String.mk assignedName),
    hasHoliday := weekContainsHoliday startDate endDate holidays,
    isHolidayPeriod := isWeekInHolidayPeriod startDate endDate startDate.y,
    notes := String.mk notes }

/-- One data row of the import: the source skips rows with a column count
other than five and rows whose dates do not parse; the Holidays column
(index 3) is ignored. -/
def parseRow (people : List Person) (holidays : List Holiday) (line : List Char) : Option Week :=
  if (scanRow line).length = 5 then
    match parseDate ((scanRow line).getD 0 []), parseDate ((scanRow line).getD 1 []) with
    | some startDate, some endDate =>
      some (importedWeek people holidays startDate endDate
        ((scanRow line).getD 2 []) ((scanRow line).getD 4 []))
    | _, _ => none
  else none

/-- A data row the import loop skips with a warning: wrong column count or
an unparseable start or end date. -/
def rowSkipped (line : List Char) : Prop :=
  (scanRow line).length ≠ 5 ∨
  parseDate ((scanRow line).getD 0 []) = none ∨
  parseDate ((scanRow line).getD 1 []) = none

instance (line : List Char) : Decidable (rowSkipped line) := by
  unfold rowSkipped; infer_instance

/-- A concrete assigned week with a holiday, for recount instances. -/
def wA : Week := ⟨⟨2025, 3, 4⟩, ⟨2025, 3, 10⟩, Assigned.personId 1, true, false, ""⟩

/-- A concrete import row inside the blackout window with a resolvable name. -/
def c10Line : List Char := ("2025-12-23,2025-12-29,Alice,,").toList

/-- Roster holding the person named on c10Line. -/
def c10People : List Person := [⟨1, "Alice", []⟩]

/-- The week produced from c10Line. -/
def c10Week : Week :=
  ⟨⟨2025, 12, 23⟩, ⟨2025, 12, 29⟩, Assigned.status "Holiday Period", false, true, ""⟩

/-- The line list of an import: physical lines with blank lines removed. -/
def csvLines (content : String) : List (List Char) :=
  (splitLines content.toList).filter (fun l => !(trimList l).isEmpty)

/-- importScheduleCSV after line splitting: length check, exact header
validation, and row parsing with skipping; zero retained rows is fatal. -/
def importFromLines (people : List Person) (holidays : List Holiday) :
    List (List Char) → Except String (List Week)
  | [] => Except.error "CSV file must contain headers and at least one data row."
  | [_] => Except.error "CSV file must contain headers and at least one data row."
  | header :: dataLines =>
    if (splitCommas header).map trimList ≠ csvHeadersChars then
      Except.error "Invalid CSV headers."
    else
      match dataLines.filterMap (parseRow people holidays) with
      | [] => Except.error "No valid schedule data could be imported from the CSV."
      | w :: ws => Except.ok (w :: ws)

/-- importScheduleCSV from the source, as a pure function from the file
content to either an error or the imported schedule. -/
def importScheduleCSV (people : List Person) (holidays : List Holiday)
    (content : String) : Except String (List Week) :=
  if content = "" then Except.error "File is empty or could not be read."
  else importFromLines people holidays (csvLines content)

/-- The fatal import conditions of the source: empty file content, fewer
than two non-blank lines, a header line that does not equal the expected
five column names in order, or every data row skipped. -/
def fatalImport (people : List Person) (holidays : List Holiday) (content : String) : Prop :=
  content = "" ∨
  (match csvLines content with
   | [] => True
   | [_] => True
   | header :: dataLines =>
     (splitCommas header).map trimList ≠ csvHeadersChars ∨
     dataLines.filterMap (parseRow people holidays) = [])

/-- The state-level effect of an import: on any error the previous schedule
is kept (the source only calls setSchedule after every check passes). -/
def applyImportCSV (people : List Person) (holidays : List Holiday)
    (prev : List Week) (content : String) : List Week :=
  match importScheduleCSV people holidays content with
  | Except.error _ => prev
  | Except.ok s => s

/-- getHolidaysInWeek from the source: the holidays falling inside the week. -/
def getHolidaysInWeek (holidays : List Holiday) (startDate endDate : CDate) : List Holiday :=
  holidays.filter fun h =>
    match parseDate h.date.toList with
    | some hd => dle startDate hd && dle hd endDate
    | none => false

/-- The Holidays column of one week: date-colon-name entries joined by a raw
newline inside the cell. -/
def holidaysColumn (holidays : List Holiday) (startDate endDate : CDate) : List Char :=
  List.intercalate ['\n']
    ((getHolidaysInWeek holidays startDate endDate).map
      (fun h => h.date.toList ++ ':' :: ' ' :: h.name.toList))

/-- One exported data row. -/
def exportWeekRow (people : List Person) (holidays : List Holiday) (w : Week) : List Char :=
  List.intercalate [','] [
    escapeField (fmtDate w.startDate),
    escapeField (fmtDate w.endDate),
    escapeField (getPersonName people w.assignedTo).toList,
    escapeField (holidaysColumn holidays w.startDate w.endDate),
    escapeField w.notes.toList]

/-- The header line of the CSV. -/
def csvHeaderLine : List Char := List.intercalate [','] csvHeadersChars

/-- exportScheduleCSV from the source: none models the alert-and-return on
an empty schedule, otherwise the produced file content. -/
def exportScheduleCSV (people : List Person) (holidays : List Holiday)
    (schedule : List Week) : Option (List Char) :=
  if schedule.isEmpty then none
  else some (List.intercalate ['\n']
    (csvHeaderLine :: schedule.map (exportWeekRow people holidays)))

/-- The engine counters after the first k weeks of an assignment run that
starts at index 0 with fresh counters. -/
def countsBefore (people : List Person) (hl : List Holiday) (sched : List Week)
    (k : Nat) : Nat → Counts :=
  (assignLoop people hl (sched.take k) 0 initCounts).2

/-- Concrete roster for witness instances: the first person is on leave for
the first December 2025 week. -/
def wPeople : List Person :=
  [⟨1, "Alice", [⟨"2025-12-01", "2025-12-07"⟩]⟩, ⟨2, "Bob", []⟩]

/-- Concrete two-person roster with no leave. -/
def wPeople2 : List Person := [⟨1, "A", []⟩, ⟨2, "B", []⟩]

/-- The first week of the December 2025 schedule over wPeople. -/
def wWeek1 : Week := ⟨⟨2025, 12, 1⟩, ⟨2025, 12, 7⟩, Assigned.personId 2, false, false, ""⟩

/-- The first week of the December 2025 schedule over an empty roster. -/
def wNoOne : Week :=
  ⟨⟨2025, 12, 1⟩, ⟨2025, 12, 7⟩, Assigned.status "No one available", false, false, ""⟩

/-- The blackout week starting 2025-12-22 of the December 2025 schedule. -/
def wDec22 : Week :=
  ⟨⟨2025, 12, 22⟩, ⟨2025, 12, 28⟩, Assigned.status "Holiday Period", false, true, ""⟩

/-- A concrete unassigned non-blackout week. -/
def wNonHP : Week := ⟨⟨2025, 3, 4⟩, ⟨2025, 3, 10⟩, Assigned.empty, false, false, ""⟩

/-- A field value whose CSV round trip is textually faithful: no double
quote, no newline, no carriage return, and stable under trimming. -/
def cleanField (l : List Char) : Prop :=
  (∀ c ∈ l, c ≠ '"' ∧ c ≠ '\n' ∧ c ≠ '\r') ∧ trimList l = l

instance (l : List Char) : Decidable (cleanField l) := by
  unfold cleanField; infer_instance

/-- The sentinel strings recognised by getPersonIdFromName. -/
def recognizedSentinel (s : String) : Prop :=
  s = "Holiday Period" ∨ s = "No one available" ∨ s = "Unassigned"

instance (s : String) : Decidable (recognizedSentinel s) := by
  unfold recognizedSentinel; infer_instance

/-- The assignment value a CSV round trip reproduces: a null assignment
comes back as the Unassigned sentinel string, everything else unchanged. -/
def roundTripAssign : Assigned → Assigned
  | Assigned.empty => Assigned.status "Unassigned"
  | a => a

/-- The week a CSV round trip reproduces: dates, assignment (up to
roundTripAssign) and notes are preserved while both flags are re-derived
by the import. -/
def roundTripWeek (holidays : List Holiday) (w : Week) : Week :=
  { startDate := w.startDate, endDate := w.endDate,
    assignedTo := roundTripAssign w.assignedTo,
    hasHoliday := weekContainsHoliday w.startDate w.endDate holidays,
    isHolidayPeriod := isWeekInHolidayPeriod w.startDate w.endDate w.startDate.y,
    notes := w.notes }

/-- A concrete week whose notes contain a double quote. -/
def c5Week : Week :=
  ⟨⟨2025, 3, 4⟩, ⟨2025, 3, 10⟩, Assigned.status "No one available", false, false,
    "He said \"hi\""⟩

/-- The week the import reproduces from the export of c5Week: the scanner
drops the double quotes from the notes. -/
def c5WeekRound : Week :=
  ⟨⟨2025, 3, 4⟩, ⟨2025, 3, 10⟩, Assigned.status "No one available", false, false,
    "He said hi"⟩

/-- The field scanner with an explicit already-pushed field list, for
reasoning about one comma-separated segment at a time. -/
def scanRowFrom (vals : List (List Char)) (line : List Char) : List (List Char) :=
  (line.foldl scanStep (vals, [], false)).1
    ++ [unescapeField (trimList (line.foldl scanStep (vals, [], false)).2.1)]

/-- An assignedTo value the import can reconstruct from its exported name:
a person id that resolves in the roster, a recognized sentinel string, or
null, which exports as Unassigned. -/
def resolvable (people : List Person) : Assigned → Prop
  | Assigned.personId n => (people.find? fun q => q.id == n).isSome = true
  | Assigned.status s => recognizedSentinel s
  | Assigned.empty => True

instance (people : List Person) (a : Assigned) : Decidable (resolvable people a) :=
  match a with
  | Assigned.personId n =>
    inferInstanceAs (Decidable ((people.find? fun q => q.id == n).isSome = true))
  | Assigned.status s => inferInstanceAs (Decidable (recognizedSentinel s))
  | Assigned.empty => inferInstanceAs (Decidable True)

/-- A roster whose names survive the case-insensitive import lookup: no two
names collide after lowering and no name lowers to a sentinel string. -/
def rosterExportSafe (people : List Person) : Prop :=
  (people.map fun p => lowerStr p.name).Nodup ∧
  ∀ p ∈ people, lowerStr p.name ≠ "holiday period" ∧
    lowerStr p.name ≠ "no one available" ∧ lowerStr p.name ≠ "unassigned"

instance (people : List Person) : Decidable (rosterExportSafe people) := by
  unfold rosterExportSafe; infer_instance

/-- The per-week conditions under which one exported row re-imports to the
round-trip week: four-digit valid dates, textually faithful name, holidays
and notes cells, a reconstructible assignment, and a blackout flag already
consistent with the recomputed overlap test. -/
def exportFaithful (people : List Person) (holidays : List Holiday) (w : Week) : Prop :=
  w.startDate.valid ∧ w.endDate.valid ∧
  1000 ≤ w.startDate.y ∧ w.startDate.y ≤ 9999 ∧
  1000 ≤ w.endDate.y ∧ w.endDate.y ≤ 9999 ∧
  cleanField (getPersonName people w.assignedTo).toList ∧
  cleanField (holidaysColumn holidays w.startDate w.endDate) ∧
  cleanField w.notes.toList ∧
  resolvable people w.assignedTo ∧
  (isWeekInHolidayPeriod w.startDate w.endDate w.startDate.y = true →
    w.assignedTo = Assigned.status "Holiday Period")

instance (people : List Person) (holidays : List Holiday) (w : Week) :
    Decidable (exportFaithful people holidays w) := by
  unfold exportFaithful; infer_instance

/-- Decidable equality for import results, used by concrete instances. -/
instance {e a : Type} [DecidableEq e] [DecidableEq a] : DecidableEq (Except e a) :=
  fun x y =>
    match x, y with
    | Except.ok u, Except.ok v =>
      if h : u = v then isTrue (by rw [h]) else isFalse (fun hc => h (Except.ok.inj hc))
    | Except.error u, Except.error v =>
      if h : u = v then isTrue (by rw [h]) else isFalse (fun hc => h (Except.error.inj hc))
    | Except.ok _, Except.error _ => isFalse (fun hc => Except.noConfusion hc)
    | Except.error _, Except.ok _ => isFalse (fun hc => Except.noConfusion hc)

theorem isLeap_iff (y : Nat) : isLeap y = true ↔ ((y % 4 = 0 ∧ y % 100 ≠ 0) ∨ y % 400 = 0) := by
  simp [isLeap, Bool.or_eq_true, Bool.and_eq_true, beq_iff_eq, bne_iff_ne]

theorem toDays_eq (x : CDate) :
    toDays x = yearDays (if x.m ≤ 2 then x.y - 1 else x.y)
      + ((153 * (if 2 < x.m then x.m - 3 else x.m + 9) + 2) / 5 + x.d - 1) := by
  simp only [toDays, yearDays]
  generalize (if x.m ≤ 2 then x.y - 1 else x.y) = t
  generalize ((153 * (if 2 < x.m then x.m - 3 else x.m + 9) + 2) / 5) = c
  omega

theorem yearDays_add_one (z : Nat) :
    yearDays (z + 1) = yearDays z + 365
      + (if ((z + 1) % 4 = 0 ∧ (z + 1) % 100 ≠ 0) ∨ (z + 1) % 400 = 0 then 1 else 0) := by
  simp only [yearDays, Nat.succ_div]
  split_ifs <;> omega

theorem yearDays_succ (y : Nat) (hy : 1 ≤ y) :
    yearDays y = yearDays (y - 1) + 365
      + (if (y % 4 = 0 ∧ y % 100 ≠ 0) ∨ y % 400 = 0 then 1 else 0) := by
  obtain ⟨z, rfl⟩ : ∃ z, y = z + 1 := ⟨y - 1, by omega⟩
  simpa using yearDays_add_one z

theorem toDays_succ (x : CDate) (h : x.valid) : toDays x.succ = toDays x + 1 := by
  obtain ⟨y, m, d⟩ := x
  obtain ⟨hy, hm1, hm2, hd1, hd2⟩ := h
  simp only at hy hm1 hm2 hd1 hd2
  rw [daysInMonth] at hd2
  unfold CDate.succ
  simp only
  rw [daysInMonth]
  interval_cases m <;> norm_num at hd2 ⊢ <;> split_ifs at hd2 ⊢ <;>
    rw [toDays_eq, toDays_eq] <;> norm_num <;> (try rw [yearDays_succ y hy]) <;>
    (try split_ifs) <;> (try simp only [isLeap_iff] at *) <;> omega

theorem daysInMonth_pos (y m : Nat) : 1 ≤ daysInMonth y m := by
  unfold daysInMonth isLeap; split_ifs <;> omega

theorem valid_succ (x : CDate) (h : x.valid) : x.succ.valid := by
  obtain ⟨hy, hm1, hm2, hd1, hd2⟩ := h
  unfold CDate.succ
  split_ifs with h1 h2
  · exact ⟨hy, hm1, hm2, by show 1 ≤ x.d + 1; omega,
      by show x.d + 1 ≤ daysInMonth x.y x.m; omega⟩
  · exact ⟨hy, by show 1 ≤ x.m + 1; omega, by show x.m + 1 ≤ 12; omega,
      le_refl 1, by show 1 ≤ daysInMonth x.y (x.m + 1); exact daysInMonth_pos _ _⟩
  · exact ⟨by show 1 ≤ x.y + 1; omega, le_refl 1, by norm_num,
      le_refl 1, by show 1 ≤ daysInMonth (x.y + 1) 1; exact daysInMonth_pos _ _⟩

theorem toDays_addDays (x : CDate) (n : Nat) (h : x.valid) :
    toDays (addDays x n) = toDays x + n ∧ (addDays x n).valid := by
  induction n with
  | zero => simpa [addDays] using h
  | succ k ih =>
    have hstep : addDays x (k + 1) = (addDays x k).succ := by
      simp [addDays, Function.iterate_succ_apply']
    refine ⟨?_, ?_⟩
    · rw [hstep, toDays_succ _ ih.2, ih.1]; omega
    · rw [hstep]; exact valid_succ _ ih.2

theorem valid_addDays (x : CDate) (n : Nat) (h : x.valid) : (addDays x n).valid :=
  (toDays_addDays x n h).2

theorem keyLt_iff (a b : Nat × Nat × Option Nat) :
    keyLt a b = true ↔
      (a.1 < b.1 ∨ (a.1 = b.1 ∧ (a.2.1 < b.2.1 ∨
        (a.2.1 = b.2.1 ∧ oLt a.2.2 b.2.2 = true)))) := by
  unfold keyLt
  split_ifs <;> simp_all [decide_eq_true_eq] <;> omega

theorem oLt_irrefl (o : Option Nat) : oLt o o = false := by
  rcases o with _ | i <;> simp [oLt]

theorem oLt_trans {o1 o2 o3 : Option Nat} (h1 : oLt o1 o2 = true) (h2 : oLt o2 o3 = true) :
    oLt o1 o3 = true := by
  rcases o1 with _ | i <;> rcases o2 with _ | j <;> rcases o3 with _ | k <;>
    simp_all [oLt] <;> omega

theorem oLt_imp {o1 o2 o3 : Option Nat} (h1 : oLt o1 o2 = true) (h2 : oLt o3 o2 = false) :
    oLt o1 o3 = true := by
  rcases o1 with _ | i <;> rcases o2 with _ | j <;> rcases o3 with _ | k <;>
    simp_all [oLt] <;> omega

theorem oLt_asymm {o1 o2 : Option Nat} (h : oLt o1 o2 = true) : oLt o2 o1 = false := by
  rcases o1 with _ | i <;> rcases o2 with _ | j <;> simp_all [oLt] <;> omega

theorem keyLt_irrefl (a : Nat × Nat × Option Nat) : keyLt a a = false := by
  rw [Bool.eq_false_iff]
  intro h
  rw [keyLt_iff] at h
  rcases h with h | ⟨_, h | ⟨_, h⟩⟩ <;> simp_all [oLt_irrefl]

theorem keyLt_trans {a b c : Nat × Nat × Option Nat}
    (h1 : keyLt a b = true) (h2 : keyLt b c = true) : keyLt a c = true := by
  rw [keyLt_iff] at h1 h2 ⊢
  rcases h1 with h1 | ⟨e1, h1 | ⟨e1a, h1⟩⟩ <;> rcases h2 with h2 | ⟨e2, h2 | ⟨e2a, h2⟩⟩ <;>
    first
      | (left; omega)
      | (right; refine ⟨by omega, ?_⟩;
          first
            | (left; omega)
            | (right; exact ⟨by omega, oLt_trans h1 h2⟩)
            | (right; exact ⟨by omega, by simp_all⟩))

theorem keyLt_asymm {a b : Nat × Nat × Option Nat} (h : keyLt a b = true) :
    keyLt b a = false := by
  rw [Bool.eq_false_iff]
  intro h2
  rw [keyLt_iff] at h h2
  rcases h with h | ⟨e1, h | ⟨e1a, h⟩⟩ <;> rcases h2 with h2 | ⟨e2, h2 | ⟨e2a, h2⟩⟩ <;>
    first
      | omega
      | simp_all [oLt_asymm h]

theorem keyLt_imp {a b c : Nat × Nat × Option Nat}
    (h1 : keyLt a b = true) (h2 : keyLt c b = false) : keyLt a c = true := by
  obtain ⟨a1, a2, a3⟩ := a
  obtain ⟨b1, b2, b3⟩ := b
  obtain ⟨c1, c2, c3⟩ := c
  rw [keyLt_iff] at h1 ⊢
  rw [Bool.eq_false_iff] at h2
  rw [ne_eq, keyLt_iff] at h2
  rcases a3 with _ | i <;> rcases b3 with _ | j <;> rcases c3 with _ | k <;>
    simp_all [oLt] <;> omega

theorem pickMin_spec (counts : Nat → Counts) (a : Person) (l : List Person) :
    ∃ pre suf, a :: l = pre ++ pickMin counts a l :: suf ∧
      (∀ q ∈ pre, keyLt (keyOf counts (pickMin counts a l)) (keyOf counts q) = true) ∧
      (∀ q ∈ suf, keyLt (keyOf counts q) (keyOf counts (pickMin counts a l)) = false) := by
  induction l generalizing a with
  | nil => exact ⟨[], [], rfl, by simp, by simp⟩
  | cons q l ih =>
    have hfold : pickMin counts a (q :: l) =
        pickMin counts (if keyLt (keyOf counts q) (keyOf counts a) then q else a) l := rfl
    by_cases hq : keyLt (keyOf counts q) (keyOf counts a) = true
    · rw [hfold, if_pos hq]
      obtain ⟨pre, suf, hdec, hpre, hsuf⟩ := ih q
      have hma : keyLt (keyOf counts (pickMin counts q l)) (keyOf counts a) = true := by
        cases pre with
        | nil =>
          simp only [List.nil_append] at hdec
          have : pickMin counts q l = q := (List.cons.injEq _ _ _ _ ▸ hdec).1.symm
          rw [this]; exact hq
        | cons p pre2 =>
          have hpq : p = q := by
            have h := congrArg List.head? hdec
            simp only [List.head?_cons, List.cons_append, Option.some.injEq] at h
            exact h.symm
          have hmem : q ∈ p :: pre2 := by rw [hpq]; exact List.mem_cons_self _ _
          exact keyLt_trans (hpre q hmem) hq
      refine ⟨a :: pre, suf, ?_, ?_, hsuf⟩
      · rw [List.cons_append, ← hdec]
      · intro x hx
        rcases List.mem_cons.mp hx with rfl | hx
        · exact hma
        · exact hpre x hx
    · rw [hfold, if_neg hq]
      obtain ⟨pre, suf, hdec, hpre, hsuf⟩ := ih a
      cases pre with
      | nil =>
        simp only [List.nil_append] at hdec
        have hm : pickMin counts a l = a := (List.cons.injEq _ _ _ _ ▸ hdec).1.symm
        have hl : l = suf := (List.cons.injEq _ _ _ _ ▸ hdec).2
        refine ⟨[], q :: suf, ?_, by simp, ?_⟩
        · simp only [List.nil_append]
          rw [hm, ← hl]
        · intro x hx
          rcases List.mem_cons.mp hx with rfl | hx
          · rw [hm]; exact Bool.eq_false_iff.mpr hq
          · exact hsuf x hx
      | cons p pre2 =>
        have hpa : p = a := by
          have h := congrArg List.head? hdec
          simp only [List.head?_cons, List.cons_append, Option.some.injEq] at h
          exact h.symm
        have hl : l = pre2 ++ pickMin counts a l :: suf := by
          have := congrArg List.tail hdec
          simpa using this
        have hma : keyLt (keyOf counts (pickMin counts a l)) (keyOf counts a) = true := by
          refine hpre a ?_
          rw [hpa]; exact List.mem_cons_self _ _
        refine ⟨a :: q :: pre2, suf, ?_, ?_, hsuf⟩
        · rw [List.cons_append, List.cons_append, ← hl]
        · intro x hx
          rcases List.mem_cons.mp hx with rfl | hx
          · exact hma
          · rcases List.mem_cons.mp hx with rfl | hx
            · exact keyLt_imp hma (Bool.eq_false_iff.mpr hq)
            · refine hpre x ?_
              rw [hpa]; exact List.mem_cons_of_mem _ hx

theorem pickMin_mem (counts : Nat → Counts) (a : Person) (l : List Person) :
    pickMin counts a l ∈ a :: l := by
  obtain ⟨pre, suf, hdec, -, -⟩ := pickMin_spec counts a l
  rw [hdec]
  exact List.mem_append.mpr (Or.inr (List.mem_cons_self _ _))

theorem selectFirst_mem {counts : Nat → Counts} {l : List Person} {p : Person}
    (h : selectFirst counts l = some p) : p ∈ l := by
  cases l with
  | nil => simp [selectFirst] at h
  | cons a ps =>
    have : p = pickMin counts a ps := by
      simpa [selectFirst] using h.symm
    rw [this]
    exact pickMin_mem counts a ps

theorem mem_availablePeople {people : List Person} {w : Week} {p : Person}
    (h : p ∈ availablePeople people w) :
    p ∈ people ∧ isPersonOnLeave people p.id w.startDate w.endDate = false := by
  have := List.mem_filter.mp h
  refine ⟨this.1, ?_⟩
  have h2 := this.2
  simpa using h2

theorem assignWeek_skip (people : List Person) (hl : List Holiday) (w : Week)
    (index : Nat) (counts : Nat → Counts) (h : w.isHolidayPeriod = true) :
    assignWeek people hl w index counts = (w, counts) := by
  unfold assignWeek
  rw [if_pos h]

theorem assignWeek_fields (people : List Person) (hl : List Holiday) (w : Week)
    (index : Nat) (counts : Nat → Counts) :
    (assignWeek people hl w index counts).1.startDate = w.startDate ∧
    (assignWeek people hl w index counts).1.endDate = w.endDate ∧
    (assignWeek people hl w index counts).1.isHolidayPeriod = w.isHolidayPeriod ∧
    (assignWeek people hl w index counts).1.notes = w.notes := by
  by_cases hHP : w.isHolidayPeriod = true
  · rw [assignWeek_skip people hl w index counts hHP]
    exact ⟨rfl, rfl, rfl, rfl⟩
  · unfold assignWeek
    rw [if_neg hHP]
    cases hsel : selectFirst counts (availablePeople people w) <;> simp [hsel]

theorem assignLoop_forall₂ (people : List Person) (hl : List Holiday) :
    ∀ (l : List Week) (index : Nat) (counts : Nat → Counts),
    List.Forall₂ (fun w w' => w'.startDate = w.startDate ∧ w'.endDate = w.endDate ∧
      w'.isHolidayPeriod = w.isHolidayPeriod ∧ w'.notes = w.notes ∧
      (w.isHolidayPeriod = true → w' = w) ∧
      (w.isHolidayPeriod = false → ∀ id, w'.assignedTo = Assigned.personId id →
        isPersonOnLeave people id w.startDate w.endDate = false))
      l (assignLoop people hl l index counts).1 := by
  intro l
  induction l with
  | nil => intro index counts; exact List.Forall₂.nil
  | cons w rest ih =>
    intro index counts
    refine List.Forall₂.cons ?_ (ih (index + 1) _)
    obtain ⟨hs, he, hh, hn⟩ := assignWeek_fields people hl w index counts
    refine ⟨hs, he, hh, hn, ?_, ?_⟩
    · intro hHP
      rw [assignWeek_skip people hl w index counts hHP]
    · intro hHP id hid
      unfold assignWeek at hid
      rw [if_neg (by rw [hHP]; exact Bool.false_ne_true)] at hid
      cases hsel : selectFirst counts (availablePeople people w) with
      | none => rw [hsel] at hid; simp at hid
      | some p =>
        rw [hsel] at hid
        simp only [Assigned.personId.injEq] at hid
        have hmem := selectFirst_mem hsel
        have := (mem_availablePeople hmem).2
        rw [← hid]
        exact this

theorem assignLoop_map_dates (people : List Person) (hl : List Holiday) :
    ∀ (l : List Week) (index : Nat) (counts : Nat → Counts),
    (assignLoop people hl l index counts).1.map
        (fun w => (w.startDate, w.endDate, w.isHolidayPeriod)) =
      l.map (fun w => (w.startDate, w.endDate, w.isHolidayPeriod)) := by
  intro l
  induction l with
  | nil => intro index counts; rfl
  | cons w rest ih =>
    intro index counts
    obtain ⟨hs, he, hh, -⟩ := assignWeek_fields people hl w index counts
    simp only [assignLoop, List.map_cons, ih (index + 1), hs, he, hh]

theorem assignLoop_get (people : List Person) (hl : List Holiday) :
    ∀ (l : List Week) (k index : Nat) (counts : Nat → Counts),
    ((assignLoop people hl l index counts).1.drop k).head? =
      ((l.drop k).head?).map (fun w =>
        (assignWeek people hl w (index + k)
          ((assignLoop people hl (l.take k) index counts).2)).1) := by
  intro l
  induction l with
  | nil => intro k index counts; simp [assignLoop]
  | cons w rest ih =>
    intro k index counts
    cases k with
    | zero => simp [assignLoop]
    | succ k =>
      have := ih k (index + 1) (assignWeek people hl w index counts).2
      simp only [assignLoop, List.drop_succ_cons, List.take_succ_cons]
      rw [this]
      have harith : index + 1 + k = index + (k + 1) := by omega
      rw [harith]

theorem assignLoop_take_succ (people : List Person) (hl : List Holiday) :
    ∀ (l : List Week) (k index : Nat) (counts : Nat → Counts) (w : Week),
    (l.drop k).head? = some w →
    (assignLoop people hl (l.take (k + 1)) index counts).2 =
      (assignWeek people hl w (index + k)
        ((assignLoop people hl (l.take k) index counts).2)).2 := by
  intro l
  induction l with
  | nil => intro k index counts w h; simp at h
  | cons v rest ih =>
    intro k index counts w h
    cases k with
    | zero =>
      simp only [List.drop_zero, List.head?_cons, Option.some.injEq] at h
      subst h
      simp [assignLoop]
    | succ k =>
      simp only [List.drop_succ_cons] at h
      have := ih k (index + 1) (assignWeek people hl v index counts).2 w h
      simp only [List.take_succ_cons, assignLoop]
      rw [this]
      have harith : index + 1 + k = index + (k + 1) := by omega
      rw [harith]

theorem assignLoop_length (people : List Person) (hl : List Holiday) :
    ∀ (l : List Week) (index : Nat) (counts : Nat → Counts),
    (assignLoop people hl l index counts).1.length = l.length := by
  intro l
  induction l with
  | nil => intro index counts; rfl
  | cons w rest ih =>
    intro index counts
    simp [assignLoop, ih (index + 1)]

theorem findAnchor_valid (year startMonth startDayOfWeek : Nat)
    (hy : 1 ≤ year) (hm : startMonth ≤ 11) :
    ∀ (fuel : Nat) (d : CDate), d.valid →
      (findAnchor fuel year startMonth startDayOfWeek d).valid := by
  intro fuel
  induction fuel with
  | zero => intro d hd; exact hd
  | succ k ih =>
    intro d hd
    unfold findAnchor
    split_ifs with h1 h2
    · exact hd
    · refine valid_addDays _ _ ⟨hy, ?_, ?_, le_refl 1, daysInMonth_pos _ _⟩
      · show 1 ≤ startMonth + 1; omega
      · show startMonth + 1 ≤ 12; omega
    · exact ih d.succ (valid_succ d hd)

theorem weekObj_fields (year : Nat) (hl : List Holiday) (date : CDate) :
    (weekObj year hl date).startDate = date ∧
    (weekObj year hl date).endDate = addDays date 6 ∧
    (weekObj year hl date).assignedTo =
      (if isWeekInHolidayPeriod date (addDays date 6) year then
        Assigned.status "Holiday Period" else Assigned.empty) ∧
    (weekObj year hl date).hasHoliday = weekContainsHoliday date (addDays date 6) hl ∧
    (weekObj year hl date).isHolidayPeriod = isWeekInHolidayPeriod date (addDays date 6) year ∧
    (weekObj year hl date).notes = "" := by
  refine ⟨?_, ?_, ?_, ?_, ?_, ?_⟩ <;> simp only [weekObj]

theorem genWeeks_head_start (year : Nat) (hl : List Holiday) :
    ∀ (fuel : Nat) (d : CDate) (w : Week),
      (genWeeks year hl fuel d).head? = some w → w.startDate = d := by
  intro fuel d w h
  cases fuel with
  | zero => simp [genWeeks] at h
  | succ k =>
    rw [genWeeks] at h
    by_cases hy : d.y = year
    · rw [if_pos hy] at h
      simp only [List.head?_cons, Option.some.injEq] at h
      rw [← h]
      exact (weekObj_fields year hl d).1
    · rw [if_neg hy] at h
      simp at h

theorem genWeeks_mem (year : Nat) (hl : List Holiday) :
    ∀ (fuel : Nat) (d : CDate), d.valid →
    ∀ w ∈ genWeeks year hl fuel d,
      w.startDate.valid ∧ w.startDate.y = year ∧ w.endDate = addDays w.startDate 6 ∧
      w.isHolidayPeriod = isWeekInHolidayPeriod w.startDate w.endDate year ∧
      w.assignedTo = (if w.isHolidayPeriod = true then Assigned.status "Holiday Period"
        else Assigned.empty) ∧
      w.hasHoliday = weekContainsHoliday w.startDate w.endDate hl ∧
      w.notes = "" := by
  intro fuel
  induction fuel with
  | zero => intro d hd w hw; simp [genWeeks] at hw
  | succ k ih =>
    intro d hd w hw
    rw [genWeeks] at hw
    by_cases hy : d.y = year
    · rw [if_pos hy] at hw
      rcases List.mem_cons.mp hw with rfl | hw
      · obtain ⟨f1, f2, f3, f4, f5, f6⟩ := weekObj_fields year hl d
        rw [f1, f2, f3, f4, f5, f6]
        refine ⟨hd, hy, rfl, rfl, ?_, rfl, rfl⟩
        by_cases hp : isWeekInHolidayPeriod d (addDays d 6) year = true <;> simp [hp]
      · exact ih (addDays d 7) (valid_addDays d 7 hd) w hw
    · rw [if_neg hy] at hw
      simp at hw

theorem genWeeks_chain (year : Nat) (hl : List Holiday) :
    ∀ (fuel : Nat) (d : CDate),
      List.Chain' (fun a b => b.startDate = addDays a.startDate 7)
        (genWeeks year hl fuel d) := by
  intro fuel
  induction fuel with
  | zero => intro d; exact List.chain'_nil
  | succ k ih =>
    intro d
    rw [genWeeks]
    by_cases hy : d.y = year
    · rw [if_pos hy]
      rw [List.chain'_cons']
      refine ⟨?_, ih (addDays d 7)⟩
      intro b hb
      have := genWeeks_head_start year hl k (addDays d 7) b hb
      rw [this, (weekObj_fields year hl d).1]
    · rw [if_neg hy]
      exact List.chain'_nil

theorem forall₂_mem_right {α β : Type} {R : α → β → Prop} :
    ∀ {l1 : List α} {l2 : List β}, List.Forall₂ R l1 l2 → ∀ b ∈ l2, ∃ a ∈ l1, R a b := by
  intro l1 l2 h
  induction h with
  | nil => intro b hb; simp at hb
  | @cons a b l1t l2t hr _ ih =>
    intro x hx
    rcases List.mem_cons.mp hx with rfl | hx
    · exact ⟨a, List.mem_cons_self _ _, hr⟩
    · obtain ⟨a2, ha2, hab⟩ := ih x hx
      exact ⟨a2, List.mem_cons_of_mem _ ha2, hab⟩

theorem assignLoop_map_start (people : List Person) (hl : List Holiday) :
    ∀ (l : List Week) (index : Nat) (counts : Nat → Counts),
    (assignLoop people hl l index counts).1.map (fun w => w.startDate) =
      l.map (fun w => w.startDate) := by
  intro l
  induction l with
  | nil => intro index counts; rfl
  | cons w rest ih =>
    intro index counts
    obtain ⟨hs, -, -, -⟩ := assignWeek_fields people hl w index counts
    simp only [assignLoop, List.map_cons, ih (index + 1), hs]

theorem genWeeks_startDates_chain (year : Nat) (hl : List Holiday) :
    ∀ (fuel : Nat) (d : CDate), d.valid →
      List.Chain' (fun a b => toDays b = toDays a + 7)
        ((genWeeks year hl fuel d).map (fun w => w.startDate)) := by
  intro fuel
  induction fuel with
  | zero => intro d hd; rw [genWeeks]; exact List.chain'_nil
  | succ k ih =>
    intro d hd
    rw [genWeeks]
    by_cases hy : d.y = year
    · rw [if_pos hy, List.map_cons, List.chain'_cons']
      refine ⟨?_, ih (addDays d 7) (valid_addDays d 7 hd)⟩
      intro b hb
      rw [List.head?_map] at hb
      cases hhead : (genWeeks year hl k (addDays d 7)).head? with
      | none => rw [hhead] at hb; simp at hb
      | some w0 =>
        rw [hhead] at hb
        simp only [Option.map_some', Option.mem_def, Option.some.injEq] at hb
        have hws : w0.startDate = addDays d 7 :=
          genWeeks_head_start year hl k (addDays d 7) w0 hhead
        rw [(weekObj_fields year hl d).1, ← hb, hws]
        exact (toDays_addDays d 7 hd).1
    · rw [if_neg hy]
      exact List.chain'_nil

theorem anchor_valid_start (year startMonth : Nat) (hy : 1 ≤ year) (hm : startMonth ≤ 11) :
    CDate.valid ⟨year, startMonth + 1, 1⟩ := by
  refine ⟨hy, ?_, ?_, le_refl 1, daysInMonth_pos _ _⟩
  · show 1 ≤ startMonth + 1; omega
  · show startMonth + 1 ≤ 12; omega

theorem generateSchedule_fst (year startMonth startDayOfWeek : Nat)
    (people : List Person) (hl : List Holiday) :
    (generateSchedule year startMonth startDayOfWeek people hl).1 =
      (assignLoop people hl
        (genWeeks year hl 60
          (findAnchor 64 year startMonth startDayOfWeek ⟨year, startMonth + 1, 1⟩))
        0 initCounts).1 := rfl

/-- C3: for every year (at least 1), startMonth in 0..11 and startWeekday in
0..6, the Schedule Generator produces a week sequence whose start dates are
strictly increasing with no gaps and no overlaps: consecutive start dates
are exactly 7 days apart, each week ends exactly 6 days after its start
(a 7-day span), and every start date has calendar year equal to the
configured year. -/
theorem c3_generator_spans (year startMonth startDayOfWeek : Nat)
    (people : List Person) (hl : List Holiday)
    (hy : 1 ≤ year) (hm : startMonth ≤ 11) (hwd : startDayOfWeek ≤ 6) :
    (∀ w ∈ (generateSchedule year startMonth startDayOfWeek people hl).1,
        w.startDate.y = year ∧ toDays w.endDate = toDays w.startDate + 6) ∧
    List.Chain' (fun a b => toDays b = toDays a + 7)
      ((generateSchedule year startMonth startDayOfWeek people hl).1.map
        (fun w => w.startDate)) ∧
    List.Pairwise (fun a b => toDays a < toDays b)
      ((generateSchedule year startMonth startDayOfWeek people hl).1.map
        (fun w => w.startDate)) := by
  have hanchor : (findAnchor 64 year startMonth startDayOfWeek
      ⟨year, startMonth + 1, 1⟩).valid :=
    findAnchor_valid year startMonth startDayOfWeek hy hm 64 _
      (anchor_valid_start year startMonth hy hm)
  have hmapeq := assignLoop_map_start people hl
    (genWeeks year hl 60
      (findAnchor 64 year startMonth startDayOfWeek ⟨year, startMonth + 1, 1⟩))
    0 initCounts
  have hchain : List.Chain' (fun a b => toDays b = toDays a + 7)
      ((generateSchedule year startMonth startDayOfWeek people hl).1.map
        (fun w => w.startDate)) := by
    rw [generateSchedule_fst, hmapeq]
    exact genWeeks_startDates_chain year hl 60 _ hanchor
  refine ⟨?_, hchain, ?_⟩
  · intro w hw
    rw [generateSchedule_fst] at hw
    obtain ⟨win, hwin, hrel⟩ :=
      forall₂_mem_right (assignLoop_forall₂ people hl _ 0 initCounts) w hw
    obtain ⟨hvalid, hyear, hend, -, -, -, -⟩ :=
      genWeeks_mem year hl 60 _ hanchor win hwin
    obtain ⟨hs, he, -, -, -, -⟩ := hrel
    refine ⟨by rw [hs, hyear], ?_⟩
    rw [hs, he, hend]
    exact (toDays_addDays win.startDate 6 hvalid).1
  · have hlt : List.Chain' (fun a b => toDays a < toDays b)
        ((generateSchedule year startMonth startDayOfWeek people hl).1.map
          (fun w => w.startDate)) := by
      refine List.Chain'.imp ?_ hchain
      intro a b h
      omega
    haveI : IsTrans CDate (fun a b => toDays a < toDays b) :=
      ⟨fun _ _ _ h1 h2 => Nat.lt_trans h1 h2⟩
    exact List.chain'_iff_pairwise.mp hlt

/-- C4: every generated week has its blackout flag true exactly when its
span [start, end] overlaps the interval from the Monday before Dec 25 of
the year through the Friday after Jan 1 of the next year, under the test
weekStart at most blackoutEnd and weekEnd at least blackoutStart; and every
blackout week carries the Holiday Period sentinel as its assignment, which
the assignment pass never overwrites with a person. -/
theorem c4_blackout_weeks (year startMonth startDayOfWeek : Nat)
    (people : List Person) (hl : List Holiday)
    (hy : 1 ≤ year) (hm : startMonth ≤ 11) :
    ∀ w ∈ (generateSchedule year startMonth startDayOfWeek people hl).1,
      (w.isHolidayPeriod = true ↔
        (dle w.startDate (getFridayAfter ⟨year + 1, 1, 1⟩) = true ∧
         dle (getMondayBefore ⟨year, 12, 25⟩) w.endDate = true)) ∧
      (w.isHolidayPeriod = true → w.assignedTo = Assigned.status "Holiday Period") := by
  have hanchor : (findAnchor 64 year startMonth startDayOfWeek
      ⟨year, startMonth + 1, 1⟩).valid :=
    findAnchor_valid year startMonth startDayOfWeek hy hm 64 _
      (anchor_valid_start year startMonth hy hm)
  intro w hw
  rw [generateSchedule_fst] at hw
  obtain ⟨win, hwin, hrel⟩ :=
    forall₂_mem_right (assignLoop_forall₂ people hl _ 0 initCounts) w hw
  obtain ⟨-, -, -, hiff, hassign, -, -⟩ := genWeeks_mem year hl 60 _ hanchor win hwin
  obtain ⟨hs, he, hh, -, hskip, -⟩ := hrel
  constructor
  · rw [hh, hs, he, hiff]
    unfold isWeekInHolidayPeriod getHolidayPeriod
    simp [Bool.and_eq_true]
  · intro hHP
    have hwinHP : win.isHolidayPeriod = true := by rw [← hh]; exact hHP
    rw [hskip hwinHP, hassign, if_pos hwinHP]

/-- C2: a full assignment run never assigns a week to a person whose parsed
leave intervals overlap any day of that week, and every person on leave for
a week is excluded from that week candidate set. -/
theorem c2_leave_respected (year startMonth startDayOfWeek : Nat)
    (people : List Person) (hl : List Holiday)
    (hy : 1 ≤ year) (hm : startMonth ≤ 11) :
    ∀ w ∈ (generateSchedule year startMonth startDayOfWeek people hl).1,
      (∀ id, w.assignedTo = Assigned.personId id →
        isPersonOnLeave people id w.startDate w.endDate = false) ∧
      (∀ p ∈ people, isPersonOnLeave people p.id w.startDate w.endDate = true →
        p ∉ availablePeople people w) := by
  have hanchor : (findAnchor 64 year startMonth startDayOfWeek
      ⟨year, startMonth + 1, 1⟩).valid :=
    findAnchor_valid year startMonth startDayOfWeek hy hm 64 _
      (anchor_valid_start year startMonth hy hm)
  intro w hw
  rw [generateSchedule_fst] at hw
  obtain ⟨win, hwin, hrel⟩ :=
    forall₂_mem_right (assignLoop_forall₂ people hl _ 0 initCounts) w hw
  obtain ⟨-, -, -, -, hassign, -, -⟩ := genWeeks_mem year hl 60 _ hanchor win hwin
  obtain ⟨hs, he, -, -, hskip, hleave⟩ := hrel
  constructor
  · intro id hid
    by_cases hHP : win.isHolidayPeriod = true
    · exfalso
      rw [hskip hHP, hassign, if_pos hHP] at hid
      exact Assigned.noConfusion hid
    · rw [hs, he]
      exact hleave (Bool.eq_false_iff.mpr hHP) id hid
  · intro p hp honleave hmem
    have := (mem_availablePeople hmem).2
    rw [this] at honleave
    exact Bool.false_ne_true honleave

theorem assignWeek_eval (people : List Person) (hl : List Holiday) (w : Week)
    (index : Nat) (counts : Nat → Counts) (p : Person)
    (hnb : w.isHolidayPeriod = false)
    (hsel : selectFirst counts (availablePeople people w) = some p) :
    assignWeek people hl w index counts =
      ({ w with
          assignedTo := Assigned.personId p.id,
          hasHoliday := weekContainsHoliday w.startDate w.endDate hl },
       fun id => if id = p.id then
          { total := (counts p.id).total + 1,
            holiday := (counts p.id).holiday
              + (if weekContainsHoliday w.startDate w.endDate hl then 1 else 0),
            lastAssigned := some index }
        else counts id) := by
  unfold assignWeek
  rw [if_neg (by rw [hnb]; exact Bool.false_ne_true), hsel]

/-- C1: with weeks processed in chronological order, every non-blackout
week whose available candidate list is non-empty is assigned to an
available person p whose key (total duties so far, holiday duties so far,
last-assigned index with never-assigned below every index, smaller index
meaning less recent and winning) is lexicographically minimal under the
counters accumulated over the preceding weeks, and every candidate before p
in roster order has a strictly larger key, so remaining ties resolve by
roster order. After assigning, the total of p is incremented, the holiday
count of p is incremented exactly when the week contains a holiday, the
last-assigned index of p becomes the week position, and all other counters
are unchanged. -/
theorem c1_fair_assignment (people : List Person) (hl : List Holiday)
    (sched : List Week) (k : Nat) (w : Week)
    (hk : (sched.drop k).head? = some w)
    (hnb : w.isHolidayPeriod = false)
    (hav : availablePeople people w ≠ []) :
    ∃ p pre suf,
      availablePeople people w = pre ++ p :: suf ∧
      (∀ q ∈ pre, keyLt (keyOf (countsBefore people hl sched k) p)
        (keyOf (countsBefore people hl sched k) q) = true) ∧
      (∀ q ∈ availablePeople people w,
        keyLt (keyOf (countsBefore people hl sched k) q)
          (keyOf (countsBefore people hl sched k) p) = false) ∧
      ((assignPeopleToWeeks people hl sched).1.drop k).head? = some
        { w with
            assignedTo := Assigned.personId p.id,
            hasHoliday := weekContainsHoliday w.startDate w.endDate hl } ∧
      countsBefore people hl sched (k + 1) p.id =
        { total := (countsBefore people hl sched k p.id).total + 1,
          holiday := (countsBefore people hl sched k p.id).holiday
            + (if weekContainsHoliday w.startDate w.endDate hl then 1 else 0),
          lastAssigned := some k } ∧
      (∀ id, id ≠ p.id → countsBefore people hl sched (k + 1) id =
        countsBefore people hl sched k id) := by
  cases havail : availablePeople people w with
  | nil => exact absurd havail hav
  | cons a ps =>
    obtain ⟨pre, suf, hdec, hpre, hsuf⟩ :=
      pickMin_spec (countsBefore people hl sched k) a ps
    have hsel : selectFirst (countsBefore people hl sched k) (availablePeople people w) =
        some (pickMin (countsBefore people hl sched k) a ps) := by
      rw [havail]; rfl
    have heval := assignWeek_eval people hl w k (countsBefore people hl sched k) _ hnb hsel
    have hweek : (assignWeek people hl w k (countsBefore people hl sched k)).1 =
        { w with
            assignedTo := Assigned.personId (pickMin (countsBefore people hl sched k) a ps).id,
            hasHoliday := weekContainsHoliday w.startDate w.endDate hl } := by
      rw [heval]
    have hcounts : (assignWeek people hl w k (countsBefore people hl sched k)).2 =
        fun id => if id = (pickMin (countsBefore people hl sched k) a ps).id then
          { total := (countsBefore people hl sched k
              (pickMin (countsBefore people hl sched k) a ps).id).total + 1,
            holiday := (countsBefore people hl sched k
              (pickMin (countsBefore people hl sched k) a ps).id).holiday
              + (if weekContainsHoliday w.startDate w.endDate hl then 1 else 0),
            lastAssigned := some k }
        else countsBefore people hl sched k id := by
      rw [heval]
    refine ⟨pickMin (countsBefore people hl sched k) a ps, pre, suf, ?_, hpre, ?_, ?_, ?_, ?_⟩
    · exact hdec
    · intro q hq
      rw [hdec] at hq
      rcases List.mem_append.mp hq with hq | hq
      · exact keyLt_asymm (hpre q hq)
      · rcases List.mem_cons.mp hq with rfl | hq
        · exact keyLt_irrefl _
        · exact hsuf q hq
    · have hout := assignLoop_get people hl sched k 0 initCounts
      rw [hk] at hout
      show ((assignLoop people hl sched 0 initCounts).1.drop k).head? = _
      rw [hout]
      simp only [Option.map_some']
      rw [Nat.zero_add]
      rw [show (assignLoop people hl (sched.take k) 0 initCounts).2 =
        countsBefore people hl sched k from rfl]
      rw [hweek]
    · have hstep := assignLoop_take_succ people hl sched k 0 initCounts w hk
      show (assignLoop people hl (sched.take (k + 1)) 0 initCounts).2 _ = _
      rw [hstep, Nat.zero_add]
      rw [show (assignLoop people hl (sched.take k) 0 initCounts).2 =
        countsBefore people hl sched k from rfl]
      rw [hcounts]
      simp
    · intro id hid
      have hstep := assignLoop_take_succ people hl sched k 0 initCounts w hk
      show (assignLoop people hl (sched.take (k + 1)) 0 initCounts).2 _ =
        countsBefore people hl sched k _
      rw [hstep, Nat.zero_add]
      rw [show (assignLoop people hl (sched.take k) 0 initCounts).2 =
        countsBefore people hl sched k from rfl]
      rw [hcounts]
      simp [hid]

/-- C9: for year 2025, startMonth 0 and startWeekday 2 the first generated
week starts on 2025-01-07 (the first Tuesday of January 2025), and the
blackout window for 2025 is 2025-12-22 (the Monday before Dec 25) through
2026-01-02 (the Friday after Jan 1 2026), as computed by the Monday-before
and Friday-after helpers. -/
theorem c9_concrete_example :
    ((generateSchedule 2025 0 2 [] []).1.head?).map (fun w => w.startDate) =
      some ⟨2025, 1, 7⟩ ∧
    getHolidayPeriod 2025 = (⟨2025, 12, 22⟩, ⟨2026, 1, 2⟩) := by
  exact ⟨by decide, by decide⟩

theorem c1_fair_assignment_witness :
    ∃ p pre suf,
      availablePeople wPeople2 wNonHP = pre ++ p :: suf ∧
      (∀ q ∈ pre, keyLt (keyOf (countsBefore wPeople2 [] [wNonHP] 0) p)
        (keyOf (countsBefore wPeople2 [] [wNonHP] 0) q) = true) ∧
      (∀ q ∈ availablePeople wPeople2 wNonHP,
        keyLt (keyOf (countsBefore wPeople2 [] [wNonHP] 0) q)
          (keyOf (countsBefore wPeople2 [] [wNonHP] 0) p) = false) ∧
      ((assignPeopleToWeeks wPeople2 [] [wNonHP]).1.drop 0).head? = some
        { wNonHP with
            assignedTo := Assigned.personId p.id,
            hasHoliday := weekContainsHoliday wNonHP.startDate wNonHP.endDate [] } ∧
      countsBefore wPeople2 [] [wNonHP] (0 + 1) p.id =
        { total := (countsBefore wPeople2 [] [wNonHP] 0 p.id).total + 1,
          holiday := (countsBefore wPeople2 [] [wNonHP] 0 p.id).holiday
            + (if weekContainsHoliday wNonHP.startDate wNonHP.endDate [] then 1 else 0),
          lastAssigned := some 0 } ∧
      (∀ id, id ≠ p.id → countsBefore wPeople2 [] [wNonHP] (0 + 1) id =
        countsBefore wPeople2 [] [wNonHP] 0 id) :=
  c1_fair_assignment wPeople2 [] [wNonHP] 0 wNonHP (by decide) (by decide) (by decide)

theorem c2_leave_respected_witness :
    wWeek1 ∈ (generateSchedule 2025 11 1 wPeople []).1 ∧
    wWeek1.assignedTo = Assigned.personId 2 ∧
    isPersonOnLeave wPeople 2 wWeek1.startDate wWeek1.endDate = false := by
  have h := c2_leave_respected 2025 11 1 wPeople [] (by norm_num) (by norm_num)
    wWeek1 (by decide)
  exact ⟨by decide, by decide, h.1 2 (by decide)⟩

theorem c3_generator_spans_witness :
    wNoOne ∈ (generateSchedule 2025 11 1 [] []).1 ∧
    wNoOne.startDate.y = 2025 ∧ toDays wNoOne.endDate = toDays wNoOne.startDate + 6 := by
  have h := c3_generator_spans 2025 11 1 [] [] (by norm_num) (by norm_num) (by norm_num)
  have h2 := h.1 wNoOne (by decide)
  exact ⟨by decide, h2.1, h2.2⟩

theorem c4_blackout_weeks_witness :
    wDec22 ∈ (generateSchedule 2025 11 1 [] []).1 ∧
    wDec22.assignedTo = Assigned.status "Holiday Period" ∧
    (dle wDec22.startDate (getFridayAfter ⟨2026, 1, 1⟩) = true ∧
     dle (getMondayBefore ⟨2025, 12, 25⟩) wDec22.endDate = true) := by
  have h := c4_blackout_weeks 2025 11 1 [] [] (by norm_num) (by norm_num)
    wDec22 (by decide)
  exact ⟨by decide, h.2 (by decide), h.1.mp (by decide)⟩

theorem recalc_count_some (id : Nat) :
    ∀ (l : List Week) (m : Nat → Option Tally) (t : Tally), m id = some t →
    (l.foldl recalcStep m) id =
      some ⟨t.total + (l.filter (fun w => decide (w.assignedTo = Assigned.personId id))).length,
            t.holiday + (l.filter (fun w =>
              decide (w.assignedTo = Assigned.personId id ∧ w.hasHoliday = true))).length⟩ := by
  intro l
  induction l with
  | nil =>
    intro m t hm
    simp only [List.foldl_nil, List.filter_nil, List.length_nil, Nat.add_zero, hm]
  | cons w rest ih =>
    intro m t hm
    rw [List.foldl_cons]
    cases hw : w.assignedTo with
    | personId pid =>
      by_cases hpid : pid = id
      · subst hpid
        have hm2 : (recalcStep m w) pid =
            some ⟨t.total + 1, t.holiday + (if w.hasHoliday then 1 else 0)⟩ := by
          simp [recalcStep, hw, hm]
        rw [ih (recalcStep m w) _ hm2]
        cases hh : w.hasHoliday <;> simp [List.filter_cons, hw, hh] <;> omega
      · have hm2 : (recalcStep m w) id = some t := by
          cases hmp : m pid with
          | none => simp only [recalcStep, hw, hmp]; exact hm
          | some t2 =>
            simp only [recalcStep, hw, hmp]
            rw [if_neg (fun hc => hpid hc.symm)]
            exact hm
        rw [ih (recalcStep m w) t hm2]
        have hp1 : decide (w.assignedTo = Assigned.personId id) = false := by
          simp only [hw, decide_eq_false_iff_not]
          intro hc
          exact hpid (Assigned.personId.injEq pid id ▸ hc)
        have hp2 : decide (w.assignedTo = Assigned.personId id ∧ w.hasHoliday = true) = false := by
          simp only [decide_eq_false_iff_not]
          intro hc
          rw [hw] at hc
          exact hpid (Assigned.personId.injEq pid id ▸ hc.1)
        simp only [List.filter_cons, hp1, hp2, Bool.false_eq_true, if_false]
    | status st =>
      have hstep : recalcStep m w = m := by
        simp only [recalcStep, hw]
      rw [hstep, ih m t hm]
      have hp1 : decide (w.assignedTo = Assigned.personId id) = false := by
        simp only [hw, decide_eq_false_iff_not]
        exact fun hc => Assigned.noConfusion hc
      have hp2 : decide (w.assignedTo = Assigned.personId id ∧ w.hasHoliday = true) = false := by
        simp only [decide_eq_false_iff_not]
        intro hc
        rw [hw] at hc
        exact Assigned.noConfusion hc.1
      simp only [List.filter_cons, hp1, hp2, Bool.false_eq_true, if_false]
    | empty =>
      have hstep : recalcStep m w = m := by
        simp only [recalcStep, hw]
      rw [hstep, ih m t hm]
      have hp1 : decide (w.assignedTo = Assigned.personId id) = false := by
        simp only [hw, decide_eq_false_iff_not]
        exact fun hc => Assigned.noConfusion hc
      have hp2 : decide (w.assignedTo = Assigned.personId id ∧ w.hasHoliday = true) = false := by
        simp only [decide_eq_false_iff_not]
        intro hc
        rw [hw] at hc
        exact Assigned.noConfusion hc.1
      simp only [List.filter_cons, hp1, hp2, Bool.false_eq_true, if_false]

/-- C6: the aggregate recount pass never changes any week or its
assignment (the schedule component of the state is returned unchanged),
running it twice yields the same state as running it once, and it derives
each roster member tallies purely by scanning the assignment field of the
weeks: total counts the weeks assigned to the member and holiday counts
those of them whose hasHoliday flag is set. -/
theorem c6_recount_pass (people : List Person) (sched : List Week)
    (counts0 : Nat → Option Tally) :
    (recalcPass people (sched, counts0)).1 = sched ∧
    recalcPass people (recalcPass people (sched, counts0)) =
      recalcPass people (sched, counts0) ∧
    (∀ id, (people.any (fun p => p.id == id)) = true →
      recalculateAssignments people sched id =
        some ⟨(sched.filter (fun w => decide (w.assignedTo = Assigned.personId id))).length,
              (sched.filter (fun w =>
                decide (w.assignedTo = Assigned.personId id ∧ w.hasHoliday = true))).length⟩) := by
  refine ⟨rfl, rfl, ?_⟩
  intro id hid
  have hinit : recalcInit people id = some ⟨0, 0⟩ := by
    unfold recalcInit
    rw [if_pos hid]
  unfold recalculateAssignments
  rw [recalc_count_some id sched (recalcInit people) ⟨0, 0⟩ hinit]
  simp

theorem c6_recount_pass_witness :
    recalculateAssignments wPeople2 [wA] 1 = some ⟨1, 1⟩ := by
  have h := (c6_recount_pass wPeople2 [wA] (fun _ => none)).2.2 1 (by decide)
  rw [h]
  decide

theorem c7_import_atomic (people : List Person) (holidays : List Holiday)
    (prev : List Week) (content : String)
    (h : fatalImport people holidays content) :
    (∃ msg, importScheduleCSV people holidays content = Except.error msg) ∧
    applyImportCSV people holidays prev content = prev := by
  have herr : ∃ msg, importScheduleCSV people holidays content = Except.error msg := by
    unfold importScheduleCSV
    by_cases hc : content = ""
    · rw [if_pos hc]
      exact ⟨_, rfl⟩
    · rw [if_neg hc]
      unfold fatalImport at h
      rcases h with h | h
      · exact absurd h hc
      · cases hlines : csvLines content with
        | nil => exact ⟨_, rfl⟩
        | cons header rest =>
          cases rest with
          | nil => exact ⟨_, rfl⟩
          | cons l2 rest2 =>
            rw [hlines] at h
            simp only [importFromLines]
            rcases h with h | h
            · rw [if_pos h]
              exact ⟨_, rfl⟩
            · by_cases hh : (splitCommas header).map trimList ≠ csvHeadersChars
              · rw [if_pos hh]
                exact ⟨_, rfl⟩
              · rw [if_neg hh, h]
                exact ⟨_, rfl⟩
  refine ⟨herr, ?_⟩
  obtain ⟨msg, hmsg⟩ := herr
  unfold applyImportCSV
  rw [hmsg]

theorem c7_import_atomic_witness :
    fatalImport [] [] "" ∧ applyImportCSV [] [] [wA] "" = [wA] :=
  ⟨Or.inl rfl, (c7_import_atomic [] [] [wA] "" (Or.inl rfl)).2⟩

theorem parseRow_skip (people : List Person) (holidays : List Holiday)
    (line : List Char) (h : rowSkipped line) :
    parseRow people holidays line = none := by
  unfold parseRow
  unfold rowSkipped at h
  by_cases hlen : (scanRow line).length = 5
  · rw [if_pos hlen]
    rcases h with h | h | h
    · exact absurd hlen h
    · rw [h]
    · rw [h]
      cases parseDate ((scanRow line).getD 0 []) <;> rfl
  · rw [if_neg hlen]

theorem importFromLines_ok (people : List Person) (holidays : List Holiday)
    (header : List Char) (L : List (List Char))
    (hheader : (splitCommas header).map trimList = csvHeadersChars)
    {w : Week} {ws : List Week}
    (hfm : L.filterMap (parseRow people holidays) = w :: ws) :
    importFromLines people holidays (header :: L) = Except.ok (w :: ws) := by
  cases L with
  | nil => simp at hfm
  | cons l0 L2 =>
    simp only [importFromLines]
    rw [if_neg (fun hcon => hcon hheader), hfm]

/-- C8: a data row whose scanned column count differs from five, or whose
start or end date fails to parse, is skipped while the remaining rows keep
being processed: the import result equals the import of the other rows,
and as long as at least one other row is retained the whole import
succeeds. -/
theorem c8_row_skipped (people : List Person) (holidays : List Holiday)
    (header : List Char) (pre post : List (List Char)) (bad : List Char)
    (hheader : (splitCommas header).map trimList = csvHeadersChars)
    (hbad : rowSkipped bad)
    (hgood : ∃ r ∈ pre ++ post, parseRow people holidays r ≠ none) :
    importFromLines people holidays (header :: (pre ++ bad :: post)) =
      importFromLines people holidays (header :: (pre ++ post)) ∧
    ∃ ws, importFromLines people holidays (header :: (pre ++ bad :: post)) =
      Except.ok ws ∧ ws = (pre ++ post).filterMap (parseRow people holidays) := by
  have hbadnone : parseRow people holidays bad = none :=
    parseRow_skip people holidays bad hbad
  have hfm : (pre ++ bad :: post).filterMap (parseRow people holidays) =
      (pre ++ post).filterMap (parseRow people holidays) := by
    rw [List.filterMap_append, List.filterMap_append, List.filterMap_cons_none hbadnone]
  have hne : (pre ++ post).filterMap (parseRow people holidays) ≠ [] := by
    rw [Ne, List.filterMap_eq_nil_iff]
    push_neg
    obtain ⟨r, hr, hrne⟩ := hgood
    exact ⟨r, hr, hrne⟩
  cases hcase : (pre ++ post).filterMap (parseRow people holidays) with
  | nil => exact absurd hcase hne
  | cons w ws =>
    have h1 := importFromLines_ok people holidays header (pre ++ bad :: post) hheader
      (hfm.trans hcase)
    have h2 := importFromLines_ok people holidays header (pre ++ post) hheader hcase
    exact ⟨h1.trans h2.symm, w :: ws, h1, rfl⟩

theorem c8_row_skipped_witness :
    rowSkipped ("2025-03-04,2025-03-10,x,y").toList ∧
    importFromLines [] [] [("Week Start Date,Week End Date,Assigned To,Holidays,Notes").toList,
        ("2025-03-04,2025-03-10,x,y").toList, ("2025-03-11,2025-03-17,,,").toList] =
      importFromLines [] [] [("Week Start Date,Week End Date,Assigned To,Holidays,Notes").toList,
        ("2025-03-11,2025-03-17,,,").toList] := by
  refine ⟨by decide, ?_⟩
  have h := c8_row_skipped [] []
    ("Week Start Date,Week End Date,Assigned To,Holidays,Notes").toList
    [] [("2025-03-11,2025-03-17,,,").toList] ("2025-03-04,2025-03-10,x,y").toList
    (by decide) (by decide)
    ⟨("2025-03-11,2025-03-17,,,").toList, by decide, by decide⟩
  exact h.1

/-- C10: every CSV row retained by the import whose span overlaps the
blackout period computed from the year of its own start date gets the
Holiday Period sentinel as its assignment, whatever the Assigned To column
contained. -/
theorem c10_blackout_override (people : List Person) (holidays : List Holiday)
    (line : List Char) (w : Week)
    (h : parseRow people holidays line = some w)
    (hov : isWeekInHolidayPeriod w.startDate w.endDate w.startDate.y = true) :
    w.assignedTo = Assigned.status "Holiday Period" := by
  unfold parseRow at h
  by_cases hlen : (scanRow line).length = 5
  · rw [if_pos hlen] at h
    cases h0 : parseDate ((scanRow line).getD 0 []) with
    | none => rw [h0] at h; exact Option.noConfusion h
    | some sd =>
      rw [h0] at h
      cases h1 : parseDate ((scanRow line).getD 1 []) with
      | none => rw [h1] at h; exact Option.noConfusion h
      | some ed =>
        rw [h1] at h
        simp only [Option.some.injEq] at h
        subst h
        have hs : (importedWeek people holidays sd ed ((scanRow line).getD 2 [])
            ((scanRow line).getD 4 [])).startDate = sd := rfl
        have he : (importedWeek people holidays sd ed ((scanRow line).getD 2 [])
            ((scanRow line).getD 4 [])).endDate = ed := rfl
        rw [hs, he] at hov
        show (if isWeekInHolidayPeriod sd ed sd.y then Assigned.status "Holiday Period"
          else getPersonIdFromName people (String.mk ((scanRow line).getD 2 []))) =
          Assigned.status "Holiday Period"
        rw [if_pos hov]
  · rw [if_neg hlen] at h
    exact Option.noConfusion h

theorem c10_blackout_override_witness :
    parseRow c10People [] c10Line = some c10Week ∧
    c10Week.assignedTo = Assigned.status "Holiday Period" :=
  ⟨by decide, c10_blackout_override c10People [] c10Line c10Week (by decide) (by decide)⟩

theorem natCharsAux_small (fuel n : Nat) (h : n < 10) (hf : 0 < fuel) :
    natCharsAux fuel n = [digitCh n] := by
  cases fuel with
  | zero => omega
  | succ f =>
    unfold natCharsAux
    rw [if_pos h]

theorem natCharsAux_two (fuel n : Nat) (h1 : 10 ≤ n) (h2 : n ≤ 99) (hf : n < fuel) :
    natCharsAux fuel n = [digitCh (n / 10), digitCh (n % 10)] := by
  cases fuel with
  | zero => omega
  | succ f =>
    unfold natCharsAux
    rw [if_neg (by omega : ¬ n < 10)]
    rw [natCharsAux_small f (n / 10) (by omega) (by omega)]
    rfl

theorem natCharsAux_three (fuel n : Nat) (h1 : 100 ≤ n) (h2 : n ≤ 999) (hf : n < fuel) :
    natCharsAux fuel n = [digitCh (n / 100), digitCh (n / 10 % 10), digitCh (n % 10)] := by
  cases fuel with
  | zero => omega
  | succ f =>
    unfold natCharsAux
    rw [if_neg (by omega : ¬ n < 10)]
    rw [natCharsAux_two f (n / 10) (by omega) (by omega) (by omega)]
    rw [show n / 10 / 10 = n / 100 from by omega]
    rfl

theorem natCharsAux_four (fuel n : Nat) (h1 : 1000 ≤ n) (h2 : n ≤ 9999) (hf : n < fuel) :
    natCharsAux fuel n = [digitCh (n / 1000), digitCh (n / 100 % 10),
      digitCh (n / 10 % 10), digitCh (n % 10)] := by
  cases fuel with
  | zero => omega
  | succ f =>
    unfold natCharsAux
    rw [if_neg (by omega : ¬ n < 10)]
    rw [natCharsAux_three f (n / 10) (by omega) (by omega) (by omega)]
    rw [show n / 10 / 100 = n / 1000 from by omega,
      show n / 10 / 10 % 10 = n / 100 % 10 from by omega]
    rfl

theorem natChars_year (y : Nat) (h1 : 1000 ≤ y) (h2 : y ≤ 9999) :
    natChars y = [digitCh (y / 1000), digitCh (y / 100 % 10),
      digitCh (y / 10 % 10), digitCh (y % 10)] := by
  unfold natChars
  exact natCharsAux_four (y + 1) y h1 h2 (by omega)

theorem pad2_digits (n : Nat) (h : n ≤ 99) :
    pad2 n = [digitCh (n / 10), digitCh (n % 10)] := by
  unfold pad2
  by_cases hn : n < 10
  · rw [if_pos hn, show n / 10 = 0 from by omega, show n % 10 = n from by omega]
    rfl
  · rw [if_neg hn]
    unfold natChars
    exact natCharsAux_two (n + 1) n (by omega) h (by omega)

theorem digitVal_digitCh (k : Nat) (h : k ≤ 9) : digitVal (digitCh k) = some k := by
  interval_cases k <;> rfl

theorem digitCh_ne (k : Nat) (h : k ≤ 9) :
    digitCh k ≠ '"' ∧ digitCh k ≠ '\n' ∧ digitCh k ≠ '\r' ∧ digitCh k ≠ ',' ∧
      isWS (digitCh k) = false := by
  interval_cases k <;> exact ⟨by decide, by decide, by decide, by decide, by decide⟩

theorem parse_fmtDate (x : CDate) (hv : x.valid) (h1 : 1000 ≤ x.y) (h2 : x.y ≤ 9999) :
    parseDate (fmtDate x) = some x := by
  obtain ⟨hy, hm1, hm2, hd1, hd2⟩ := hv
  have hdm : x.d ≤ 31 := by
    have := hd2
    unfold daysInMonth at this
    split_ifs at this <;> omega
  unfold fmtDate
  rw [natChars_year x.y h1 h2, pad2_digits x.m (by omega), pad2_digits x.d (by omega)]
  show parseDate [digitCh (x.y / 1000), digitCh (x.y / 100 % 10), digitCh (x.y / 10 % 10),
    digitCh (x.y % 10), '-', digitCh (x.m / 10), digitCh (x.m % 10), '-',
    digitCh (x.d / 10), digitCh (x.d % 10)] = some x
  simp only [parseDate]
  rw [if_pos ⟨trivial, trivial⟩]
  rw [digitVal_digitCh _ (by omega), digitVal_digitCh _ (by omega),
    digitVal_digitCh _ (by omega), digitVal_digitCh _ (by omega),
    digitVal_digitCh _ (by omega), digitVal_digitCh _ (by omega),
    digitVal_digitCh _ (by omega), digitVal_digitCh _ (by omega)]
  have ey : ((x.y / 1000 * 10 + x.y / 100 % 10) * 10 + x.y / 10 % 10) * 10 + x.y % 10 = x.y := by
    omega
  have em : x.m / 10 * 10 + x.m % 10 = x.m := by omega
  have ed : x.d / 10 * 10 + x.d % 10 = x.d := by omega
  simp only [ey, em, ed]
  rw [if_pos ⟨hm1, hm2, hd1, hd2⟩]

theorem natCharsAux_mem (fuel : Nat) : ∀ (n : Nat) (c : Char), c ∈ natCharsAux fuel n →
    ∃ k ≤ 9, c = digitCh k := by
  induction fuel with
  | zero =>
    intro n c hc
    simp [natCharsAux] at hc
  | succ f ih =>
    intro n c hc
    unfold natCharsAux at hc
    split_ifs at hc with hn
    · rcases List.mem_singleton.mp hc with rfl
      exact ⟨n, by omega, rfl⟩
    · rcases List.mem_append.mp hc with hc | hc
      · exact ih (n / 10) c hc
      · rcases List.mem_singleton.mp hc with rfl
        exact ⟨n % 10, by omega, rfl⟩

theorem natChars_mem (n : Nat) (c : Char) (hc : c ∈ natChars n) :
    ∃ k ≤ 9, c = digitCh k :=
  natCharsAux_mem (n + 1) n c hc

theorem pad2_mem (n : Nat) (c : Char) (hc : c ∈ pad2 n) :
    ∃ k ≤ 9, c = digitCh k := by
  unfold pad2 at hc
  split_ifs at hc with hlt
  · rcases List.mem_cons.mp hc with rfl | hc
    · exact ⟨0, by omega, rfl⟩
    · rcases List.mem_singleton.mp hc with rfl
      exact ⟨n, by omega, rfl⟩
  · exact natChars_mem n c hc

theorem fmtDate_mem (x : CDate) (c : Char) (hc : c ∈ fmtDate x) :
    (∃ k ≤ 9, c = digitCh k) ∨ c = '-' := by
  unfold fmtDate at hc
  rcases List.mem_append.mp hc with hc | hc
  · exact Or.inl (natChars_mem x.y c hc)
  · rcases List.mem_cons.mp hc with rfl | hc
    · exact Or.inr rfl
    · rcases List.mem_append.mp hc with hc | hc
      · exact Or.inl (pad2_mem x.m c hc)
      · rcases List.mem_cons.mp hc with rfl | hc
        · exact Or.inr rfl
        · exact Or.inl (pad2_mem x.d c hc)

theorem contains_of_mem (l : List Char) (c : Char) (h : c ∈ l) : l.contains c = true := by
  induction l with
  | nil => cases h
  | cons x xs ih =>
    rw [List.contains_cons]
    rcases List.mem_cons.mp h with rfl | h
    · simp
    · have hor : c = x ∨ c ∈ xs := Or.inr h
      simpa using hor

theorem dropWhile_no_ws (l : List Char) (h : ∀ c ∈ l, isWS c = false) :
    l.dropWhile isWS = l := by
  cases l with
  | nil => rfl
  | cons c cs => simp [List.dropWhile_cons, h c (List.mem_cons_self c cs)]

theorem trimList_of_no_ws (l : List Char) (h : ∀ c ∈ l, isWS c = false) :
    trimList l = l := by
  unfold trimList
  rw [dropWhile_no_ws l h,
    dropWhile_no_ws l.reverse (fun c hc => h c (List.mem_reverse.mp hc)),
    List.reverse_reverse]

theorem dropWhile_head_false (l : List Char) (x : Char) (xs : List Char)
    (h : l.dropWhile isWS = x :: xs) : isWS x = false := by
  induction l with
  | nil => simp at h
  | cons c cs ih =>
    rw [List.dropWhile_cons] at h
    by_cases hc : isWS c = true
    · rw [if_pos hc] at h; exact ih h
    · rw [if_neg hc] at h
      injection h with h1 _
      rw [← h1]
      simpa using hc

theorem trimList_ne_nil (l : List Char) (c : Char) (hc : c ∈ l) (hw : isWS c = false) :
    trimList l ≠ [] := by
  intro hnil
  unfold trimList at hnil
  rw [List.reverse_eq_nil_iff, List.dropWhile_eq_nil_iff] at hnil
  cases hdw : l.dropWhile isWS with
  | nil =>
    rw [List.dropWhile_eq_nil_iff] at hdw
    have := hdw c hc
    rw [hw] at this
    exact Bool.false_ne_true this
  | cons x xs =>
    have hx := dropWhile_head_false l x xs hdw
    have hmem : x ∈ (l.dropWhile isWS).reverse := by rw [hdw]; simp
    have := hnil x hmem
    rw [hx] at this
    exact Bool.false_ne_true this

theorem unescape_of_no_quote (l : List Char) (h : ∀ c ∈ l, c ≠ '"') :
    unescapeField l = l := by
  cases l with
  | nil => decide
  | cons c cs =>
    unfold unescapeField
    rw [if_neg]
    intro hcond
    have h1 : (c :: cs).head? = some '"' := hcond.1
    rw [List.head?_cons, Option.some.injEq] at h1
    exact h c (List.mem_cons_self c cs) h1

theorem escape_fold_id (l : List Char) (h : ∀ c ∈ l, c ≠ '"') :
    l.foldr (fun c acc => (if c = '"' then ['"', '"'] else [c]) ++ acc) [] = l := by
  induction l with
  | nil => rfl
  | cons c cs ih =>
    rw [List.foldr_cons, ih (fun d hd => h d (List.mem_cons_of_mem c hd)),
      if_neg (h c (List.mem_cons_self c cs))]
    rfl

theorem escape_fold_mem (l : List Char) (c : Char)
    (hc : c ∈ l.foldr (fun d acc => (if d = '"' then ['"', '"'] else [d]) ++ acc) []) :
    c ∈ l ∨ c = '"' := by
  induction l with
  | nil => simp at hc
  | cons d ds ih =>
    rw [List.foldr_cons] at hc
    rcases List.mem_append.mp hc with hc | hc
    · split_ifs at hc with hd
      · rcases List.mem_cons.mp hc with rfl | hc
        · exact Or.inr rfl
        · rcases List.mem_singleton.mp hc with rfl
          exact Or.inr rfl
      · rcases List.mem_singleton.mp hc with rfl
        exact Or.inl (List.mem_cons_self _ _)
    · rcases ih hc with h | h
      · exact Or.inl (List.mem_cons_of_mem d h)
      · exact Or.inr h

theorem escapeField_mem (l : List Char) (c : Char) (hc : c ∈ escapeField l) :
    c ∈ l ∨ c = '"' := by
  unfold escapeField at hc
  split_ifs at hc
  · rcases List.mem_cons.mp hc with rfl | hc
    · exact Or.inr rfl
    · rcases List.mem_append.mp hc with hc | hc
      · exact escape_fold_mem l c hc
      · rcases List.mem_singleton.mp hc with rfl
        exact Or.inr rfl
  · exact Or.inl hc

theorem scan_plain (cs : List Char) : ∀ vals cur, (∀ c ∈ cs, c ≠ '"' ∧ c ≠ ',') →
    cs.foldl scanStep (vals, cur, false) = (vals, cur ++ cs, false) := by
  induction cs with
  | nil => intro vals cur _; simp
  | cons c rest ih =>
    intro vals cur h
    have hc := h c (List.mem_cons_self c rest)
    rw [List.foldl_cons]
    have hstep : scanStep (vals, cur, false) c = (vals, cur ++ [c], false) := by
      simp [scanStep, hc.1, hc.2]
    rw [hstep, ih vals (cur ++ [c]) (fun d hd => h d (List.mem_cons_of_mem c hd))]
    simp

theorem scan_inq (cs : List Char) : ∀ vals cur, (∀ c ∈ cs, c ≠ '"') →
    cs.foldl scanStep (vals, cur, true) = (vals, cur ++ cs, true) := by
  induction cs with
  | nil => intro vals cur _; simp
  | cons c rest ih =>
    intro vals cur h
    have hc := h c (List.mem_cons_self c rest)
    rw [List.foldl_cons]
    have hstep : scanStep (vals, cur, true) c = (vals, cur ++ [c], true) := by
      simp [scanStep, hc]
    rw [hstep, ih vals (cur ++ [c]) (fun d hd => h d (List.mem_cons_of_mem c hd))]
    simp

theorem scan_field (f : List Char) (vals : List (List Char))
    (hf : ∀ c ∈ f, c ≠ '"' ∧ c ≠ '\n' ∧ c ≠ '\r') :
    (escapeField f).foldl scanStep (vals, [], false) = (vals, f, false) := by
  unfold escapeField
  split_ifs with hcond
  · rw [escape_fold_id f (fun c hc => (hf c hc).1)]
    rw [List.cons_append, List.foldl_cons]
    have h1 : scanStep (vals, ([] : List Char), false) '"' = (vals, [], true) := by
      simp [scanStep]
    rw [h1, List.foldl_append, scan_inq f vals [] (fun c hc => (hf c hc).1)]
    simp only [List.foldl_cons, List.foldl_nil]
    simp [scanStep]
  · have hcomma : ∀ c ∈ f, c ≠ ',' :=
      fun c hc he => hcond (Or.inl (he ▸ contains_of_mem f c hc))
    rw [scan_plain f vals [] (fun c hc => ⟨(hf c hc).1, hcomma c hc⟩)]
    simp

theorem intercalate_single (s a : List Char) : List.intercalate s [a] = a := by
  simp [List.intercalate]

theorem intercalate_cons2 (s a b : List Char) (l : List (List Char)) :
    List.intercalate s (a :: b :: l) = a ++ s ++ List.intercalate s (b :: l) := by
  simp [List.intercalate, List.intersperse, List.append_assoc]

theorem mem_intercalate (s : List Char) (ls : List (List Char)) (c : Char)
    (hc : c ∈ List.intercalate s ls) : (∃ l ∈ ls, c ∈ l) ∨ c ∈ s := by
  induction ls with
  | nil => simp [List.intercalate] at hc
  | cons a rest ih =>
    cases rest with
    | nil =>
      rw [intercalate_single] at hc
      exact Or.inl ⟨a, List.mem_singleton_self a, hc⟩
    | cons b bs =>
      rw [intercalate_cons2] at hc
      rcases List.mem_append.mp hc with hc | hc
      · rcases List.mem_append.mp hc with hc | hc
        · exact Or.inl ⟨a, List.mem_cons_self a (b :: bs), hc⟩
        · exact Or.inr hc
      · rcases ih hc with ⟨l, hl, hcl⟩ | hc
        · exact Or.inl ⟨l, List.mem_cons_of_mem a hl, hcl⟩
        · exact Or.inr hc

theorem scanRow_eq_from (line : List Char) : scanRow line = scanRowFrom [] line := rfl

theorem scanRowFrom_single (f : List Char) (vals : List (List Char)) (hf : cleanField f) :
    scanRowFrom vals (escapeField f) = vals ++ [f] := by
  unfold scanRowFrom
  rw [scan_field f vals hf.1]
  rw [hf.2, unescape_of_no_quote f (fun c hc => (hf.1 c hc).1)]

theorem scanRowFrom_cons (f : List Char) (g : List Char) (gs : List (List Char))
    (vals : List (List Char)) (hf : cleanField f) :
    scanRowFrom vals (List.intercalate [','] (escapeField f :: escapeField g :: gs)) =
      scanRowFrom (vals ++ [f]) (List.intercalate [','] (escapeField g :: gs)) := by
  unfold scanRowFrom
  rw [intercalate_cons2, List.append_assoc, List.singleton_append, List.foldl_append,
    scan_field f vals hf.1, List.foldl_cons]
  have hcomma : scanStep (vals, f, false) ',' =
      (vals ++ [unescapeField (trimList f)], [], false) := by
    simp [scanStep]
  rw [hcomma, hf.2, unescape_of_no_quote f (fun c hc => (hf.1 c hc).1)]

theorem scanRow_fields (fields : List (List Char)) (hne : fields ≠ [])
    (hclean : ∀ f ∈ fields, cleanField f) :
    scanRow (List.intercalate [','] (fields.map escapeField)) = fields := by
  suffices h : ∀ vals, scanRowFrom vals (List.intercalate [','] (fields.map escapeField)) =
      vals ++ fields by
    have := h []
    rw [← scanRow_eq_from] at this
    simpa using this
  induction fields with
  | nil => exact absurd rfl hne
  | cons f fs ih =>
    intro vals
    cases fs with
    | nil =>
      rw [List.map_cons, List.map_nil, intercalate_single]
      exact scanRowFrom_single f vals (hclean f (List.mem_cons_self f []))
    | cons g gs =>
      rw [List.map_cons, List.map_cons]
      rw [scanRowFrom_cons f g (gs.map escapeField) vals (hclean f (List.mem_cons_self f (g :: gs)))]
      rw [← List.map_cons]
      rw [ih (by simp) (fun u hu => hclean u (List.mem_cons_of_mem f hu)) (vals ++ [f])]
      simp

theorem splitLines_no_newline (l : List Char) (h : ∀ c ∈ l, c ≠ '\n' ∧ c ≠ '\r') :
    splitLines l = [l] := by
  induction l with
  | nil => rfl
  | cons c rest ih =>
    have hc := h c (List.mem_cons_self c rest)
    rw [splitLines.eq_def]
    split
    · rename_i heq
      exact absurd heq (List.cons_ne_nil c rest)
    · rename_i heq
      injection heq with h1 _
      exact absurd h1 hc.2
    · rename_i heq
      injection heq with h1 _
      exact absurd h1 hc.1
    · rename_i heq
      injection heq with h1 h2
      subst h1
      subst h2
      rw [ih (fun d hd => h d (List.mem_cons_of_mem c hd))]

theorem splitLines_append_line (l rest : List Char) (h : ∀ c ∈ l, c ≠ '\n' ∧ c ≠ '\r') :
    splitLines (l ++ '\n' :: rest) = l :: splitLines rest := by
  induction l with
  | nil =>
    show splitLines ('\n' :: rest) = [] :: splitLines rest
    rfl
  | cons c cs ih =>
    have hc := h c (List.mem_cons_self c cs)
    show splitLines (c :: (cs ++ '\n' :: rest)) = (c :: cs) :: splitLines rest
    rw [splitLines.eq_def]
    split
    · rename_i heq
      exact absurd heq (List.cons_ne_nil c (cs ++ '\n' :: rest))
    · rename_i heq
      injection heq with h1 _
      exact absurd h1 hc.2
    · rename_i heq
      injection heq with h1 _
      exact absurd h1 hc.1
    · rename_i heq
      injection heq with h1 h2
      subst h1
      subst h2
      rw [ih (fun d hd => h d (List.mem_cons_of_mem c hd))]

theorem splitLines_intercalate (ls : List (List Char)) (hne : ls ≠ [])
    (h : ∀ l ∈ ls, ∀ c ∈ l, c ≠ '\n' ∧ c ≠ '\r') :
    splitLines (List.intercalate ['\n'] ls) = ls := by
  induction ls with
  | nil => exact absurd rfl hne
  | cons a rest ih =>
    cases rest with
    | nil =>
      rw [intercalate_single]
      exact splitLines_no_newline a (h a (List.mem_singleton_self a))
    | cons b bs =>
      rw [intercalate_cons2, List.append_assoc]
      rw [show (['\n'] ++ List.intercalate ['\n'] (b :: bs)) =
        '\n' :: List.intercalate ['\n'] (b :: bs) from rfl]
      rw [splitLines_append_line a _ (h a (List.mem_cons_self a (b :: bs)))]
      rw [ih (by simp) (fun l hl => h l (List.mem_cons_of_mem a hl))]

theorem filterMap_all_some {α β : Type} (f : α → Option β) (g : α → β) (l : List α)
    (h : ∀ a ∈ l, f a = some (g a)) : l.filterMap f = l.map g := by
  induction l with
  | nil => rfl
  | cons a as ih =>
    rw [List.filterMap_cons, h a (List.mem_cons_self a as)]
    show g a :: as.filterMap f = (a :: as).map g
    rw [ih (fun b hb => h b (List.mem_cons_of_mem a hb)), List.map_cons]

theorem fmtDate_clean (x : CDate) : cleanField (fmtDate x) := by
  constructor
  · intro c hc
    rcases fmtDate_mem x c hc with ⟨k, hk, rfl⟩ | rfl
    · exact ⟨(digitCh_ne k hk).1, (digitCh_ne k hk).2.1, (digitCh_ne k hk).2.2.1⟩
    · exact ⟨by decide, by decide, by decide⟩
  · apply trimList_of_no_ws
    intro c hc
    rcases fmtDate_mem x c hc with ⟨k, hk, rfl⟩ | rfl
    · exact (digitCh_ne k hk).2.2.2.2
    · decide

theorem scanRow_exportWeekRow (people : List Person) (holidays : List Holiday) (w : Week)
    (hname : cleanField (getPersonName people w.assignedTo).toList)
    (hhol : cleanField (holidaysColumn holidays w.startDate w.endDate))
    (hnotes : cleanField w.notes.toList) :
    scanRow (exportWeekRow people holidays w) =
      [fmtDate w.startDate, fmtDate w.endDate,
       (getPersonName people w.assignedTo).toList,
       holidaysColumn holidays w.startDate w.endDate, w.notes.toList] := by
  have hmap : exportWeekRow people holidays w = List.intercalate [',']
      ([fmtDate w.startDate, fmtDate w.endDate,
        (getPersonName people w.assignedTo).toList,
        holidaysColumn holidays w.startDate w.endDate, w.notes.toList].map escapeField) := rfl
  rw [hmap]
  apply scanRow_fields
  · simp
  · intro f hf
    simp at hf
    rcases hf with rfl | rfl | rfl | rfl | rfl
    · exact fmtDate_clean w.startDate
    · exact fmtDate_clean w.endDate
    · exact hname
    · exact hhol
    · exact hnotes

theorem exportWeekRow_no_nl (people : List Person) (holidays : List Holiday) (w : Week)
    (hname : cleanField (getPersonName people w.assignedTo).toList)
    (hhol : cleanField (holidaysColumn holidays w.startDate w.endDate))
    (hnotes : cleanField w.notes.toList) :
    ∀ c ∈ exportWeekRow people holidays w, c ≠ '\n' ∧ c ≠ '\r' := by
  intro c hc
  have hrow : exportWeekRow people holidays w = List.intercalate [',']
      [escapeField (fmtDate w.startDate), escapeField (fmtDate w.endDate),
       escapeField (getPersonName people w.assignedTo).toList,
       escapeField (holidaysColumn holidays w.startDate w.endDate),
       escapeField w.notes.toList] := rfl
  rw [hrow] at hc
  have key : ∀ (g : List Char), cleanField g → c ∈ escapeField g → c ≠ '\n' ∧ c ≠ '\r' := by
    intro g hg hcg
    rcases escapeField_mem g c hcg with hin | rfl
    · exact ⟨(hg.1 c hin).2.1, (hg.1 c hin).2.2⟩
    · exact ⟨by decide, by decide⟩
  rcases mem_intercalate _ _ c hc with ⟨f, hf, hcf⟩ | hcs
  · simp at hf
    rcases hf with rfl | rfl | rfl | rfl | rfl
    · exact key _ (fmtDate_clean w.startDate) hcf
    · exact key _ (fmtDate_clean w.endDate) hcf
    · exact key _ hname hcf
    · exact key _ hhol hcf
    · exact key _ hnotes hcf
  · rcases List.mem_singleton.mp hcs with rfl
    exact ⟨by decide, by decide⟩

theorem comma_mem_exportWeekRow (people : List Person) (holidays : List Holiday) (w : Week) :
    ',' ∈ exportWeekRow people holidays w := by
  unfold exportWeekRow
  rw [intercalate_cons2]
  simp

theorem exportWeekRow_nonblank (people : List Person) (holidays : List Holiday) (w : Week) :
    (!(trimList (exportWeekRow people holidays w)).isEmpty) = true := by
  have h := trimList_ne_nil (exportWeekRow people holidays w) ','
    (comma_mem_exportWeekRow people holidays w) (by decide)
  cases htl : trimList (exportWeekRow people holidays w) with
  | nil => exact absurd htl h
  | cons a as => rfl

theorem header_no_nl : ∀ c ∈ csvHeaderLine, c ≠ '\n' ∧ c ≠ '\r' := by decide

theorem header_nonblank : (!(trimList csvHeaderLine).isEmpty) = true := by decide

theorem header_valid : (splitCommas csvHeaderLine).map trimList = csvHeadersChars := by decide

theorem csvLines_mk (l : List Char) :
    csvLines (String.mk l) = (splitLines l).filter (fun r => !(trimList r).isEmpty) := rfl

theorem getPersonIdFromName_sentinel (people : List Person) (s : String)
    (hs : recognizedSentinel s)
    (hno : ∀ p ∈ people, lowerStr p.name ≠ lowerStr s) :
    getPersonIdFromName people s = Assigned.status s := by
  unfold getPersonIdFromName
  have hf : people.find? (fun q => lowerStr q.name == lowerStr s) = none := by
    rw [List.find?_eq_none]
    intro q hq hbeq
    exact hno q hq (by simpa using hbeq)
  rw [hf]
  rcases hs with rfl | rfl | rfl <;> rfl

theorem resolve_name (people : List Person)
    (hnodup : (people.map fun p => lowerStr p.name).Nodup)
    (hnosent : ∀ p ∈ people, lowerStr p.name ≠ "holiday period" ∧
      lowerStr p.name ≠ "no one available" ∧ lowerStr p.name ≠ "unassigned")
    (a : Assigned) (hres : resolvable people a) :
    getPersonIdFromName people (getPersonName people a) = roundTripAssign a := by
  cases a with
  | personId n =>
    have hres2 : (people.find? (fun q => q.id == n)).isSome = true := hres
    cases hfind : people.find? (fun q => q.id == n) with
    | none => rw [hfind] at hres2; simp at hres2
    | some p =>
      have hp : p ∈ people := List.mem_of_find?_eq_some hfind
      have hpid : p.id = n := by
        have := List.find?_some hfind
        simpa using this
      have hnm : getPersonName people (Assigned.personId n) = p.name := by
        simp only [getPersonName]
        rw [hfind]
      rw [hnm]
      unfold getPersonIdFromName
      cases hf2 : people.find? (fun q => lowerStr q.name == lowerStr p.name) with
      | none =>
        exfalso
        have := List.find?_eq_none.mp hf2 p hp
        simp at this
      | some q =>
        have hq : q ∈ people := List.mem_of_find?_eq_some hf2
        have hql : lowerStr q.name = lowerStr p.name := by
          have := List.find?_some hf2
          simpa using this
        have hqp : q = p := List.inj_on_of_nodup_map hnodup hq hp hql
        show Assigned.personId q.id = roundTripAssign (Assigned.personId n)
        rw [hqp, hpid]
        rfl
  | status s =>
    have hres2 : s = "Holiday Period" ∨ s = "No one available" ∨ s = "Unassigned" := hres
    have hnm : getPersonName people (Assigned.status s) = s := rfl
    rw [hnm]
    rcases hres2 with rfl | rfl | rfl
    · have hno : ∀ p ∈ people, lowerStr p.name ≠ lowerStr "Holiday Period" := by
        intro p hp
        rw [show lowerStr "Holiday Period" = "holiday period" from by decide]
        exact (hnosent p hp).1
      exact getPersonIdFromName_sentinel people "Holiday Period" (Or.inl rfl) hno
    · have hno : ∀ p ∈ people, lowerStr p.name ≠ lowerStr "No one available" := by
        intro p hp
        rw [show lowerStr "No one available" = "no one available" from by decide]
        exact (hnosent p hp).2.1
      exact getPersonIdFromName_sentinel people "No one available" (Or.inr (Or.inl rfl)) hno
    · have hno : ∀ p ∈ people, lowerStr p.name ≠ lowerStr "Unassigned" := by
        intro p hp
        rw [show lowerStr "Unassigned" = "unassigned" from by decide]
        exact (hnosent p hp).2.2
      exact getPersonIdFromName_sentinel people "Unassigned" (Or.inr (Or.inr rfl)) hno
  | empty =>
    have hnm : getPersonName people Assigned.empty = "Unassigned" := rfl
    rw [hnm]
    have hno : ∀ p ∈ people, lowerStr p.name ≠ lowerStr "Unassigned" := by
      intro p hp
      rw [show lowerStr "Unassigned" = "unassigned" from by decide]
      exact (hnosent p hp).2.2
    exact getPersonIdFromName_sentinel people "Unassigned" (Or.inr (Or.inr rfl)) hno

theorem parseRow_exportRow (people : List Person) (holidays : List Holiday) (w : Week)
    (hnodup : (people.map fun p => lowerStr p.name).Nodup)
    (hnosent : ∀ p ∈ people, lowerStr p.name ≠ "holiday period" ∧
      lowerStr p.name ≠ "no one available" ∧ lowerStr p.name ≠ "unassigned")
    (hfaith : exportFaithful people holidays w) :
    parseRow people holidays (exportWeekRow people holidays w) =
      some (roundTripWeek holidays w) := by
  obtain ⟨hsv, hev, hy1, hy2, hy3, hy4, hname, hhol, hnotes, hres, hHP⟩ := hfaith
  have hscan := scanRow_exportWeekRow people holidays w hname hhol hnotes
  unfold parseRow
  rw [hscan]
  rw [if_pos (by rfl : ([fmtDate w.startDate, fmtDate w.endDate,
    (getPersonName people w.assignedTo).toList,
    holidaysColumn holidays w.startDate w.endDate, w.notes.toList] :
      List (List Char)).length = 5)]
  have e0 : List.getD [fmtDate w.startDate, fmtDate w.endDate,
      (getPersonName people w.assignedTo).toList,
      holidaysColumn holidays w.startDate w.endDate, w.notes.toList] 0 [] =
      fmtDate w.startDate := rfl
  have e1 : List.getD [fmtDate w.startDate, fmtDate w.endDate,
      (getPersonName people w.assignedTo).toList,
      holidaysColumn holidays w.startDate w.endDate, w.notes.toList] 1 [] =
      fmtDate w.endDate := rfl
  have e2 : List.getD [fmtDate w.startDate, fmtDate w.endDate,
      (getPersonName people w.assignedTo).toList,
      holidaysColumn holidays w.startDate w.endDate, w.notes.toList] 2 [] =
      (getPersonName people w.assignedTo).toList := rfl
  have e4 : List.getD [fmtDate w.startDate, fmtDate w.endDate,
      (getPersonName people w.assignedTo).toList,
      holidaysColumn holidays w.startDate w.endDate, w.notes.toList] 4 [] =
      w.notes.toList := rfl
  rw [e0, e1, e2, e4]
  rw [parse_fmtDate w.startDate hsv hy1 hy2, parse_fmtDate w.endDate hev hy3 hy4]
  show some (importedWeek people holidays w.startDate w.endDate
      (getPersonName people w.assignedTo).toList w.notes.toList) =
    some (roundTripWeek holidays w)
  refine congrArg some ?_
  unfold importedWeek roundTripWeek
  have heta : String.mk (getPersonName people w.assignedTo).toList =
      getPersonName people w.assignedTo := rfl
  have heta2 : String.mk w.notes.toList = w.notes := rfl
  rw [heta, heta2]
  by_cases hbp : isWeekInHolidayPeriod w.startDate w.endDate w.startDate.y = true
  · rw [if_pos hbp, hHP hbp]
    all_goals rfl
  · rw [if_neg hbp, resolve_name people hnodup hnosent w.assignedTo hres]
    all_goals rfl

/-- C5: the CSV round trip as claimed does not hold verbatim (see the
counterexample on a notes cell holding a double quote); under the amended
conditions of rosterExportSafe and exportFaithful, exporting a schedule and
importing the file with the same roster and holiday list reproduces every
week's dates and notes, the assignment up to roundTripAssign (null comes
back as the Unassigned sentinel), with both flags re-derived. -/
theorem c5_csv_round_trip (people : List Person) (holidays : List Holiday)
    (sched : List Week) (hne : sched ≠ [])
    (hsafe : rosterExportSafe people)
    (hall : ∀ w ∈ sched, exportFaithful people holidays w) :
    ∃ content, exportScheduleCSV people holidays sched = some content ∧
      importScheduleCSV people holidays (String.mk content) =
        Except.ok (sched.map (roundTripWeek holidays)) := by
  obtain ⟨hnodup, hnosent⟩ := hsafe
  cases sched with
  | nil => exact absurd rfl hne
  | cons w ws =>
  refine ⟨List.intercalate ['\n']
    (csvHeaderLine :: (w :: ws).map (exportWeekRow people holidays)), ?_, ?_⟩
  · rfl
  · have hrows_nl : ∀ r ∈ csvHeaderLine :: (w :: ws).map (exportWeekRow people holidays),
        ∀ c ∈ r, c ≠ '\n' ∧ c ≠ '\r' := by
      intro r hr
      rcases List.mem_cons.mp hr with rfl | hr
      · exact header_no_nl
      · rcases List.mem_map.mp hr with ⟨u, hu, rfl⟩
        obtain ⟨_, _, _, _, _, _, hname, hhol, hnotes, _, _⟩ := hall u hu
        exact exportWeekRow_no_nl people holidays u hname hhol hnotes
    have hsl : splitLines (List.intercalate ['\n']
        (csvHeaderLine :: (w :: ws).map (exportWeekRow people holidays))) =
        csvHeaderLine :: (w :: ws).map (exportWeekRow people holidays) :=
      splitLines_intercalate _ (by simp) hrows_nl
    have hfl : (csvHeaderLine :: (w :: ws).map (exportWeekRow people holidays)).filter
        (fun r => !(trimList r).isEmpty) =
        csvHeaderLine :: (w :: ws).map (exportWeekRow people holidays) := by
      rw [List.filter_eq_self]
      intro r hr
      rcases List.mem_cons.mp hr with rfl | hr
      · exact header_nonblank
      · rcases List.mem_map.mp hr with ⟨u, hu, rfl⟩
        exact exportWeekRow_nonblank people holidays u
    have hcne : List.intercalate ['\n']
        (csvHeaderLine :: (w :: ws).map (exportWeekRow people holidays)) ≠ [] := by
      rw [List.map_cons, intercalate_cons2]
      intro hnil
      rcases List.append_eq_nil.mp hnil with ⟨h1, _⟩
      rcases List.append_eq_nil.mp h1 with ⟨h2, _⟩
      exact (by decide : csvHeaderLine ≠ ([] : List Char)) h2
    have hmkne : String.mk (List.intercalate ['\n']
        (csvHeaderLine :: (w :: ws).map (exportWeekRow people holidays))) ≠ "" := by
      intro hmk
      exact hcne (congrArg String.toList hmk)
    unfold importScheduleCSV
    rw [if_neg hmkne]
    rw [csvLines_mk, hsl, hfl, List.map_cons]
    simp only [importFromLines]
    rw [if_neg (fun hcc => hcc header_valid)]
    have hfm : (exportWeekRow people holidays w ::
        ws.map (exportWeekRow people holidays)).filterMap (parseRow people holidays) =
        roundTripWeek holidays w :: ws.map (roundTripWeek holidays) := by
      rw [← List.map_cons, List.filterMap_map, ← List.map_cons]
      exact filterMap_all_some _ _ (w :: ws)
        (fun u hu => parseRow_exportRow people holidays u hnodup hnosent (hall u hu))
    rw [hfm]
    rfl

theorem c5_csv_round_trip_witness :
    ([wWeek1] : List Week) ≠ [] ∧ rosterExportSafe wPeople2 ∧
      (∀ u ∈ [wWeek1], exportFaithful wPeople2 [] u) ∧
      (∃ content, exportScheduleCSV wPeople2 [] [wWeek1] = some content ∧
        importScheduleCSV wPeople2 [] (String.mk content) =
          Except.ok ([wWeek1].map (roundTripWeek []))) :=
  ⟨by decide, by decide, by decide,
    c5_csv_round_trip wPeople2 [] [wWeek1] (by decide) (by decide) (by decide)⟩

/-- The verbatim round-trip property of the claim fails on a notes cell
holding a double quote: the quote-toggling import scanner drops the quote
characters, so the notes come back changed and the imported schedule is not
the exported one. -/
theorem c5_round_trip_quote_cex :
    (exportScheduleCSV [] [] [c5Week]).isSome = true ∧
      importScheduleCSV [] [] (String.mk ((exportScheduleCSV [] [] [c5Week]).getD [])) =
        Except.ok [c5WeekRound] ∧ c5WeekRound ≠ c5Week :=
  ⟨by decide, by decide, by decide⟩

end DutyAgent
